import Mathlib

/-!
Verification of the hopscotch hash containers of the `rk` repository
(`src/rk/hop_base.hpp`, `src/rk/hop_set.hpp`, `src/rk/hop_dict.hpp`,
`src/rk/numeric.hpp`).

The two containers `rk::Set<Key, HopSize, Hash>` and
`rk::Dict<Key, Value, HopSize, Hash>` share the probing base
`rk::HopscotchBase` and use textually identical insertion, removal and
growth code; `Dict` additionally moves a value alongside every key move.
We embed the common engine once, over an entry type `E` together with a
key projection `keyOf : E → K`:
  * `Set`  is the instance `E := K`,      `keyOf := id`;
  * `Dict` is the instance `E := K × V`,  `keyOf := Prod.fst`
(the parallel `keys_` / `values_` arrays of `Dict` are the two component
projections of the single entry array).  Every statement of the C++
insert/erase bodies corresponds to one statement here; where `Dict`
performs the pair of moves `keys_[i] = keys_[j]; values_[i] = values_[j]`
the embedding performs the single entry move.

Machine-integer conventions: `size_type` is `uint32_t` and the bitmap
word `hop_type` is an unsigned integer of `HopSize` bits.  Bitmap words
are modelled as `Nat` with an explicit truncation `% 2 ^ (hopBucket+1)`
at every store, mirroring the narrowing assignment to `hop_type`
(`hopBucket = HopSize - 1`, so `HopSize = hopBucket + 1` bits).  `size_`
and `capacity_` are modelled as plain `Nat`: every arithmetic step on
them that the verified statements exercise stays far below `2 ^ 32`, and
the C++ program has undefined behaviour (out-of-bounds array access via
the `capacity_ - 1` mask) before either could wrap.  `npot32`, whose
wrap-around at 0 is observable and relevant, is modelled with explicit
`% 2 ^ 32`.  Raw buffers allocated by `calloc` are modelled as total
functions `Nat → _`; `calloc` zero-fill corresponds to the constant
`default` / `0` function (the claims are settled at trivially
copyable/destructible element types, where the C++ buffer reads and
writes are exactly these function reads and updates).
-/

namespace RK

/-- `rk::npot32` (`src/rk/numeric.hpp` lines 41-51): round a 32-bit value up
to the next power of two, with `uint32_t` wrap-around semantics.  The C++
body is `--value;` followed by five or-shift smears and `return ++value;`. -/
def npot32 (value : Nat) : Nat :=
  let v0 := value % 2 ^ 32
  let v1 := (v0 + (2 ^ 32 - 1)) % 2 ^ 32
  let v2 := v1 ||| (v1 >>> 1)
  let v3 := v2 ||| (v2 >>> 2)
  let v4 := v3 ||| (v3 >>> 4)
  let v5 := v4 ||| (v4 >>> 8)
  let v6 := v5 ||| (v5 >>> 16)
  (v6 + 1) % 2 ^ 32

/-- State of a hopscotch container (`rk::HopscotchBase`, `src/rk/hop_base.hpp`
lines 186-189): the entry buffer (`keys_`, plus `values_` for `Dict`), the
hop-word buffer `hops_`, and the `size_` / `capacity_` counters.  Both buffers
have `capacity_ + hop_bucket` used slots. -/
structure HopS (E : Type) where
  entries : Nat → E
  hops : Nat → Nat
  size : Nat
  capacity : Nat

/-- Truncation of a bitmap word store to the `HopSize = hb + 1` bits of
`hop_type`. -/
def wset (hb w : Nat) : Nat := w % 2 ^ (hb + 1)

/-- `hops_[i] |= 1 << t` (stored back into `hop_type`). -/
def orBit (hb : Nat) (hops : Nat → Nat) (i t : Nat) : Nat → Nat :=
  Function.update hops i (wset hb (hops i ||| 2 ^ t))

/-- `hops_[i] ^= 1 << t` (stored back into `hop_type`). -/
def xorBit (hb : Nat) (hops : Nat → Nat) (i t : Nat) : Nat → Nat :=
  Function.update hops i (wset hb (hops i ^^^ 2 ^ t))

/-- `hop_traits<HopSize>::probe_max = HopSize * 16` (`src/rk/hop_base.hpp`). -/
def probeMax (hb : Nat) : Nat := (hb + 1) * 16

section Engine

variable {E K : Type} [DecidableEq K]

/-- `HopscotchBase::get_bucket_index` (`src/rk/hop_base.hpp` lines 158-161):
`hash(k) & (capacity_ - 1)`. -/
def bucketOf (hash : K → Nat) (n : Nat) (k : K) : Nat :=
  hash k &&& (n - 1)

/-- The loop of `HopscotchBase::find_internal` (`src/rk/hop_base.hpp` lines
172-181): while the remaining hop bits `w` are non-zero, test the low bit and
compare the key at the current slot; on match return the slot, else advance
one slot and shift the bits down.  The first argument is a structural
iteration counter; the loop halves `w` each round, so any `c` with
`w < 2 ^ c` makes the counter exit path unreachable (callers pass `c := w`,
and `w < 2 ^ w` always). -/
def findLoop (keyOf : E → K) (ent : Nat → E) : Nat → Nat → Nat → K → Nat → Nat
  | 0, _, _, _, sent => sent
  | c + 1, w, index, k, sent =>
    if w = 0 then sent
    else if w % 2 = 1 ∧ keyOf (ent index) = k then index
    else findLoop keyOf ent c (w / 2) (index + 1) k sent

/-- `HopscotchBase::find_internal` (`src/rk/hop_base.hpp` lines 170-183):
scan the hop word at the virtual bucket `index`, shifted right by one, and
return the matching slot or the end index `capacity_ + hop_bucket`. -/
def findInternal (hb : Nat) (keyOf : E → K) (s : HopS E) (index : Nat)
    (k : K) : Nat :=
  findLoop keyOf s.entries (s.hops index >>> 1) (s.hops index >>> 1) index k
    (s.capacity + hb)

/-- `HopscotchBase::find_index` (`src/rk/hop_base.hpp` lines 144-147). -/
def findIndex (hb : Nat) (hash : K → Nat) (keyOf : E → K) (s : HopS E)
    (k : K) : Nat :=
  findInternal hb keyOf s (bucketOf hash s.capacity k) k

/-- `HopscotchBase::has` (`src/rk/hop_base.hpp` lines 138-142):
`find_internal(bucket, key) != capacity_ + hop_bucket`. -/
def hasK (hb : Nat) (hash : K → Nat) (keyOf : E → K) (s : HopS E)
    (k : K) : Bool :=
  decide (findInternal hb keyOf s (bucketOf hash s.capacity k) k ≠
    s.capacity + hb)

/-- The linear probe of `insert` (`src/rk/hop_set.hpp` lines 176-179,
`src/rk/hop_dict.hpp` lines 173-176): advance `idx` while it is below
`probe_end` and the slot is occupied.  The first argument is a structural
iteration counter; any `c ≥ probe_end - idx` makes the counter exit path
unreachable (callers pass `c := probe_end`). -/
def probeLoop (hops : Nat → Nat) : Nat → Nat → Nat → Nat
  | 0, idx, _ => idx
  | c + 1, idx, probeEnd =>
    if idx < probeEnd ∧ hops idx % 2 = 1 then probeLoop hops c (idx + 1) probeEnd
    else idx

/-- The innermost relocation scan of `insert` (`src/rk/hop_set.hpp` lines
198-203, `src/rk/hop_dict.hpp` lines 195-200): advance `cursor` from
`look_first` while `cursor <= offset` and bit `offset - cursor + 1` of
`hops_[cursor]` is clear (the shrinking `hop_mask` is `1 << (offset-cursor+1)`
at each cursor position).  The first argument is a structural iteration
counter; any `c ≥ offset + 1 - cursor` makes the counter exit path
unreachable (callers pass `c := offset + 1`). -/
def scanCursor (hops : Nat → Nat) : Nat → Nat → Nat → Nat
  | 0, _, cursor => cursor
  | c + 1, offset, cursor =>
    if cursor ≤ offset ∧ (hops cursor).testBit (offset - cursor + 1) = false then
      scanCursor hops c offset (cursor + 1)
    else cursor

/-- The `do ... while(offset < idx && cursor > offset)` search of `insert`
(`src/rk/hop_set.hpp` lines 195-204, `src/rk/hop_dict.hpp` lines 192-201):
starting from `offset = look_first` (the `uint32_t` pre-decrement before the
first `++offset` cancels), rescan the cursor for each candidate `offset`.
The first argument is a structural iteration counter; any `c ≥ idx - offset`
makes the counter exit path unreachable (callers pass `c := idx`). -/
def scanOffset (hops : Nat → Nat) (lookFirst idx : Nat) : Nat → Nat → Nat × Nat
  | c, offset =>
    let cursor := scanCursor hops (offset + 1) offset lookFirst
    match c with
    | 0 => (offset, cursor)
    | c + 1 =>
      if offset < idx ∧ offset < cursor then
        scanOffset hops lookFirst idx c (offset + 1)
      else (offset, cursor)

/-- The displacement cascade `while(idx > bucket_index + hop_bucket - 1)` of
`insert` (`src/rk/hop_set.hpp` lines 189-220, `src/rk/hop_dict.hpp` lines
186-219).  On each round the candidate search either fails (`offset >= idx`,
line 206/203 — the caller reverts the occupancy bit and grows) or yields an
entry at slot `offset`, homed at `cursor`, which is moved into the hole `idx`
(`Dict` moves key and value together — the single entry move here); bit
`idx - cursor + 1` of `hops_[cursor]` is set and bit `offset - cursor + 1`
cleared, and `offset` becomes the new hole.  The first `Nat` argument after
`bi` is a structural iteration counter; the hole index strictly decreases
each round, so any `c > idx` makes the counter exit path unreachable
(callers pass `c := idx + 1`). -/
def cascadeLoop (hb bi : Nat) : Nat → (Nat → E) → (Nat → Nat) → Nat →
    Option (Nat × (Nat → E) × (Nat → Nat))
  | 0, _, _, _ => none
  | c + 1, ent, hops, idx =>
    if bi + hb - 1 < idx then
      match scanOffset hops (if idx < hb then 0 else idx - hb + 1) idx idx
          (if idx < hb then 0 else idx - hb + 1) with
      | (offset, cursor) =>
        if offset < idx then
          cascadeLoop hb bi c (Function.update ent idx (ent offset))
            (xorBit hb (orBit hb hops cursor (idx - cursor + 1)) cursor
              (offset - cursor + 1))
            offset
        else none
    else some (idx, ent, hops)

/-- The re-insertion loop of `expand` (`src/rk/hop_set.hpp` lines 473-479,
`src/rk/hop_dict.hpp` lines 376-382): for each slot of the old table whose
occupancy bit is set, insert the old entry into the new table.  `ins` is the
insertion routine of the enclosing fuel level. -/
def expandFold (ins : HopS E → E → Option (Bool × Nat × HopS E)) (old : HopS E) :
    List Nat → HopS E → Option (HopS E)
  | [], st => some st
  | i :: rest, st =>
    if old.hops i % 2 = 1 then
      (ins st (old.entries i)).bind fun r => expandFold ins old rest r.2.2
    else expandFold ins old rest st

/-- `expand` (`src/rk/hop_set.hpp` lines 463-482, `src/rk/hop_dict.hpp` lines
364-386): double `capacity_`, reset `size_`, allocate fresh zeroed buffers and
re-insert every live entry of the old buffers. -/
def expandF (hb : Nat) (dflt : E) (ins : HopS E → E → Option (Bool × Nat × HopS E))
    (old : HopS E) : Option (HopS E) :=
  expandFold ins old (List.range (old.capacity + hb))
    { entries := fun _ => dflt, hops := fun _ => 0, size := 0,
      capacity := old.capacity * 2 }

/-- One fuel level of `insert` (`src/rk/hop_set.hpp` lines 159-228 /
`src/rk/hop_dict.hpp` lines 155-228).  Returns `(insertedNew, position,
state)`: `Set::insert` returns the boolean (`false` when the key already
exists), `Dict::insert` returns the position (`ins_pt` for an existing key,
the final slot for a new one).  `prev` is the insertion routine used after a
growth retry and inside `expand`. -/
def insertStep (hb : Nat) (hash : K → Nat) (keyOf : E → K) (dflt : E)
    (prev : HopS E → E → Option (Bool × Nat × HopS E)) (s : HopS E) (e : E) :
    Option (Bool × Nat × HopS E) :=
  let k := keyOf e
  let bi := bucketOf hash s.capacity k
  let insPt := findInternal hb keyOf s bi k
  if insPt ≠ s.capacity + hb then some (false, insPt, s)
  else
    let probeEnd := min (bi + probeMax hb) (s.capacity + hb)
    let idx := probeLoop s.hops probeEnd bi probeEnd
    if idx = probeEnd then (expandF hb dflt prev s).bind fun s2 => prev s2 e
    else
      let hops1 := orBit hb s.hops idx 0
      match cascadeLoop hb bi (idx + 1) s.entries hops1 idx with
      | none =>
        (expandF hb dflt prev { s with hops := xorBit hb hops1 idx 0 }).bind
          fun s2 => prev s2 e
      | some (fi, ent2, hops2) =>
        some (true, fi,
          { entries := Function.update ent2 fi e,
            hops := orBit hb (orBit hb hops2 fi 0) bi (fi - bi + 1),
            size := s.size + 1,
            capacity := s.capacity })

/-- `insert` with recursion depth `fuel`: each growth retry descends one
level (`none` means the bound was exhausted; the C++ recursion has no such
bound and simply does not return in those runs). -/
def insertF (hb : Nat) (hash : K → Nat) (keyOf : E → K) (dflt : E) :
    Nat → HopS E → E → Option (Bool × Nat × HopS E)
  | 0 => fun _ _ => none
  | fuel + 1 => insertStep hb hash keyOf dflt (insertF hb hash keyOf dflt fuel)

/-- `Set::remove` (`src/rk/hop_set.hpp` lines 238-250) and `Dict::erase`
(`src/rk/hop_dict.hpp` lines 243-255), which are textually identical on
keys/hops: locate the key; when found, clear the displacement bit in the home
word and the occupancy bit of the slot and decrement `size_` (no entry is
destroyed or overwritten). -/
def eraseK (hb : Nat) (hash : K → Nat) (keyOf : E → K) (s : HopS E) (k : K) :
    Bool × HopS E :=
  let bi := bucketOf hash s.capacity k
  let index := findInternal hb keyOf s bi k
  if index ≠ s.capacity + hb then
    (true, { s with hops := xorBit hb (xorBit hb s.hops bi (index - bi + 1)) index 0,
                    size := s.size - 1 })
  else (false, s)

/-- `init_internal` (`src/rk/hop_set.hpp` lines 426-433, `src/rk/hop_dict.hpp`
lines 332-340): `capacity_ = npot32(initial_size)`, `size_ = 0`, zeroed
buffers of `capacity_ + hop_bucket` slots. -/
def initInternal (dflt : E) (initialSize : Nat) : HopS E :=
  { entries := fun _ => dflt, hops := fun _ => 0, size := 0,
    capacity := npot32 initialSize }

/-- `HopscotchBase::empty` (`src/rk/hop_base.hpp` lines 132-135):
`size_ == 0`. -/
def emptyK (s : HopS E) : Bool := decide (s.size = 0)

/-- The entries of the occupied slots in ascending physical-slot order:
exactly the elements visited by the container iterator
(`HopscotchBase::iterator::next`, `src/rk/hop_base.hpp` lines 73-79, which
skips every slot whose occupancy bit `hops_[i] & 1` is clear, up to
`capacity() + hop_bucket`). -/
def slotEntries (hb : Nat) (s : HopS E) : List E :=
  ((List.range (s.capacity + hb)).filter fun i => decide (s.hops i % 2 = 1)).map
    s.entries

/-- The keys of the occupied slots, in iteration order. -/
def slotKeys (hb : Nat) (keyOf : E → K) (s : HopS E) : List K :=
  (slotEntries hb s).map keyOf

/-- Loop body of `Set::operator&=` (`src/rk/hop_set.hpp` lines 285-294):
walk the slots of `*this` in iterator order; at every slot that is occupied
in the current state, remove its key when the other set lacks it.  Removal
only clears bits at the already-reached slot and its home word, so the
index walk visits exactly the slots the C++ iterator visits. -/
def interFold (hb : Nat) (hash : K → Nat) (keyOf : E → K) (other : HopS E) :
    List Nat → HopS E → HopS E
  | [], st => st
  | i :: rest, st =>
    if st.hops i % 2 = 1 ∧ hasK hb hash keyOf other (keyOf (st.entries i)) = false
    then interFold hb hash keyOf other rest
      (eraseK hb hash keyOf st (keyOf (st.entries i))).2
    else interFold hb hash keyOf other rest st

/-- `Set::operator&=` (`src/rk/hop_set.hpp` lines 285-294). -/
def interAssign (hb : Nat) (hash : K → Nat) (keyOf : E → K) (s other : HopS E) :
    HopS E :=
  interFold hb hash keyOf other (List.range (s.capacity + hb)) s

/-- `Set::operator&` (`src/rk/hop_set.hpp` lines 277-282): copy `*this`
(value copy via `clone`) and apply `&=`. -/
def interOp (hb : Nat) (hash : K → Nat) (keyOf : E → K) (a b : HopS E) :
    HopS E :=
  interAssign hb hash keyOf a b

/-- Fold of `insert` over a list of entries: the loop of `Set::operator|=`
(`src/rk/hop_set.hpp` lines 314-320), which inserts every element of the
(unchanged) other set into `*this`. -/
def insFold (hb : Nat) (hash : K → Nat) (keyOf : E → K) (dflt : E) (fuel : Nat) :
    List E → HopS E → Option (HopS E)
  | [], st => some st
  | e :: rest, st =>
    (insertF hb hash keyOf dflt fuel st e).bind fun r =>
      insFold hb hash keyOf dflt fuel rest r.2.2

/-- `Set::operator|=` (`src/rk/hop_set.hpp` lines 314-320). -/
def unionAssign (hb : Nat) (hash : K → Nat) (keyOf : E → K) (dflt : E)
    (fuel : Nat) (s other : HopS E) : Option (HopS E) :=
  insFold hb hash keyOf dflt fuel (slotEntries hb other) s

/-- `Set::operator|` (`src/rk/hop_set.hpp` lines 297-311): copy the larger
operand and `|=` the smaller into it. -/
def unionOp (hb : Nat) (hash : K → Nat) (keyOf : E → K) (dflt : E)
    (fuel : Nat) (a b : HopS E) : Option (HopS E) :=
  if a.size < b.size then unionAssign hb hash keyOf dflt fuel b a
  else unionAssign hb hash keyOf dflt fuel a b

/-- Loop of `Set::operator-=` (`src/rk/hop_set.hpp` lines 357-366): for each
element of the other set, remove it from `*this` when present. -/
def diffFold (hb : Nat) (hash : K → Nat) (keyOf : E → K) :
    List K → HopS E → HopS E
  | [], st => st
  | k :: rest, st =>
    if hasK hb hash keyOf st k then
      diffFold hb hash keyOf rest (eraseK hb hash keyOf st k).2
    else diffFold hb hash keyOf rest st

/-- `Set::operator-=` (`src/rk/hop_set.hpp` lines 357-366). -/
def diffAssign (hb : Nat) (hash : K → Nat) (keyOf : E → K) (s other : HopS E) :
    HopS E :=
  diffFold hb hash keyOf (slotKeys hb keyOf other) s

/-- `Set::operator-` (`src/rk/hop_set.hpp` lines 349-354): copy and `-=`. -/
def diffOp (hb : Nat) (hash : K → Nat) (keyOf : E → K) (a b : HopS E) :
    HopS E :=
  diffAssign hb hash keyOf a b

/-- Loop of `Set::operator^=` (`src/rk/hop_set.hpp` lines 377-390): for each
element of the other set, remove it when present, else insert it. -/
def symmFold (hb : Nat) (hash : K → Nat) (keyOf : E → K) (dflt : E)
    (fuel : Nat) : List E → HopS E → Option (HopS E)
  | [], st => some st
  | e :: rest, st =>
    if hasK hb hash keyOf st (keyOf e) then
      symmFold hb hash keyOf dflt fuel rest (eraseK hb hash keyOf st (keyOf e)).2
    else
      (insertF hb hash keyOf dflt fuel st e).bind fun r =>
        symmFold hb hash keyOf dflt fuel rest r.2.2

/-- `Set::operator^=` (`src/rk/hop_set.hpp` lines 377-390). -/
def symmAssign (hb : Nat) (hash : K → Nat) (keyOf : E → K) (dflt : E)
    (fuel : Nat) (s other : HopS E) : Option (HopS E) :=
  symmFold hb hash keyOf dflt fuel (slotEntries hb other) s

/-- `Set::operator^` (`src/rk/hop_set.hpp` lines 369-374): copy and `^=`. -/
def symmOp (hb : Nat) (hash : K → Nat) (keyOf : E → K) (dflt : E)
    (fuel : Nat) (a b : HopS E) : Option (HopS E) :=
  symmAssign hb hash keyOf dflt fuel a b

/-- One direction of `Set::intersects` (`src/rk/hop_set.hpp` lines 323-346):
walk the occupied slots of `x` and test membership of each key in `y`
(early-return `true` on the first hit is the same value as `any`). -/
def scanAny (hb : Nat) (hash : K → Nat) (keyOf : E → K) (x y : HopS E) : Bool :=
  (List.range (x.capacity + hb)).any fun i =>
    decide (x.hops i % 2 = 1) && hasK hb hash keyOf y (keyOf (x.entries i))

/-- `Set::intersects` (`src/rk/hop_set.hpp` lines 323-346): iterate the
smaller set against the larger. -/
def intersectsK (hb : Nat) (hash : K → Nat) (keyOf : E → K) (a b : HopS E) :
    Bool :=
  if a.size < b.size then scanAny hb hash keyOf a b
  else scanAny hb hash keyOf b a

/-- Size in bytes of `hop_type`: `HopSize / 8` (`uint8_t`/`uint16_t`/
`uint32_t` for `HopSize` 8/16/32). -/
def hopTypeBytes (hb : Nat) : Nat := (hb + 1) / 8

/-- `std::memset(p, 0, n)` over an array of `w`-byte words, little-endian:
word `i` is fully zeroed when its `w` bytes lie below `n`, untouched when
they lie at or above `n`, and has its low `n - i*w` bytes zeroed when `n`
falls inside it. -/
def memsetZeroBytes (w : Nat) (hops : Nat → Nat) (n : Nat) : Nat → Nat :=
  fun i =>
    if (i + 1) * w ≤ n then 0
    else if n ≤ i * w then hops i
    else (hops i >>> (8 * (n - i * w))) <<< (8 * (n - i * w))

/-- `Set::clear_internal(std::true_type)` (`src/rk/hop_set.hpp` lines
435-439), reached from `Set::clear` for trivially destructible keys:
`std::memset(hops_, 0, capacity_ + traits::hop_bucket); size_ = 0;`.
The byte count passed to `memset` is the element count
`capacity_ + hop_bucket`, not the buffer byte size
`(capacity_ + hop_bucket) * sizeof(hop_type)`. -/
def clearInternal (hb : Nat) (s : HopS E) : HopS E :=
  { s with hops := memsetZeroBytes (hopTypeBytes hb) s.hops (s.capacity + hb),
           size := 0 }

end Engine

/-- `Set::save` (`src/rk/hop_set.hpp` lines 392-407) at numeric keys with the
identity serializer: emit `size_`, `capacity_`, all `capacity_ + hop_bucket`
hop words, then all `capacity_ + hop_bucket` key slots. -/
def saveStream (hb : Nat) (s : HopS Nat) : List Nat :=
  s.size :: s.capacity ::
    ((List.range (s.capacity + hb)).map s.hops ++
      (List.range (s.capacity + hb)).map s.entries)

/-- `Set::load` (`src/rk/hop_set.hpp` lines 409-424) at numeric keys with the
identity serializer: read `size_`, then `capacity_`, then fill the freshly
allocated `keys_` array from the next `capacity_ + hop_bucket` stream values,
then fill the freshly allocated `hops_` array from the following
`capacity_ + hop_bucket` values — the reverse of the order `save` wrote the
two arrays in.  (The two loop headers are modelled as iterating their bound
variable `iter`; as written they increment an undeclared name `i` and do not
even compile when instantiated.)  Unread slots of the `calloc`ed buffers
stay zero. -/
def loadStream (hb : Nat) (str : List Nat) : HopS Nat :=
  match str with
  | sz :: cap :: rest =>
    { size := sz, capacity := cap,
      entries := fun i => if i < cap + hb then rest.getD i 0 else 0,
      hops := fun i => if i < cap + hb then rest.getD (cap + hb + i) 0 else 0 }
  | _ => { entries := fun _ => 0, hops := fun _ => 0, size := 0, capacity := 0 }

section Invariant

variable {E K : Type} [DecidableEq K]

/-- Number of slots whose occupancy bit is set. -/
def countOcc (hb : Nat) (s : HopS E) : Nat :=
  ((Finset.range (s.capacity + hb)).filter fun i => s.hops i % 2 = 1).card

/-- A key is live: some occupied slot holds it. -/
def memP (hb : Nat) (keyOf : E → K) (s : HopS E) (x : K) : Prop :=
  ∃ j < s.capacity + hb, s.hops j % 2 = 1 ∧ keyOf (s.entries j) = x

/-- Well-formedness of a table state.  `capacity_` is positive; every hop
word fits in `hop_type`; every displacement bit `t ∈ [1, hop_bucket]` set in
the word at `b` points at an occupied slot `b + t - 1` whose key has home
bucket `b`; every occupied slot is registered by such a bit in its key's
home word; occupied slots hold pairwise distinct keys; and `size_` counts
the occupied slots. -/
def WF (hb : Nat) (hash : K → Nat) (keyOf : E → K) (s : HopS E) : Prop :=
  1 ≤ s.capacity ∧
  (∀ i < s.capacity + hb, s.hops i < 2 ^ (hb + 1)) ∧
  (∀ b < s.capacity + hb, ∀ t < hb + 1, 1 ≤ t → (s.hops b).testBit t = true →
      s.hops (b + t - 1) % 2 = 1 ∧
      bucketOf hash s.capacity (keyOf (s.entries (b + t - 1))) = b) ∧
  (∀ j < s.capacity + hb, s.hops j % 2 = 1 →
      ∃ t < hb + 1, 1 ≤ t ∧
        bucketOf hash s.capacity (keyOf (s.entries j)) + t - 1 = j ∧
        (s.hops (bucketOf hash s.capacity (keyOf (s.entries j)))).testBit t
          = true) ∧
  (∀ i < s.capacity + hb, ∀ j < s.capacity + hb,
      s.hops i % 2 = 1 → s.hops j % 2 = 1 →
      keyOf (s.entries i) = keyOf (s.entries j) → i = j) ∧
  s.size = countOcc hb s

/-- Executable membership test over the slots (`memP` as a boolean). -/
def memB (hb : Nat) (keyOf : E → K) (s : HopS E) (x : K) : Bool :=
  (List.range (s.capacity + hb)).any fun j =>
    decide (s.hops j % 2 = 1) && decide (keyOf (s.entries j) = x)

/-- A key is reachable through a displacement bit: some bit `t ∈ [1, hb]`
set in the word at `b` has the key at slot `b + t - 1`.  Under `WF` this
coincides with `memP`; during an insert's displacement cascade it is the
stable notion of membership (the hole is occupied but unregistered). -/
def memRf (hb : Nat) (hash : K → Nat) (keyOf : E → K) (n : Nat)
    (ent : Nat → E) (hops : Nat → Nat) (x : K) : Prop :=
  ∃ b < n + hb, ∃ t < hb + 1, 1 ≤ t ∧ (hops b).testBit t = true ∧
    keyOf (ent (b + t - 1)) = x

/-- Invariant of the displacement cascade: the table satisfies `WF` except
at the hole slot, which is marked occupied but is registered by no
displacement bit, holds no meaningful entry, and is exempt from key
uniqueness. -/
def HoleInv (hb : Nat) (hash : K → Nat) (keyOf : E → K) (n : Nat)
    (ent : Nat → E) (hops : Nat → Nat) (hole : Nat) : Prop :=
  1 ≤ n ∧ hole < n + hb ∧ hops hole % 2 = 1 ∧
  (∀ i < n + hb, hops i < 2 ^ (hb + 1)) ∧
  (∀ b < n + hb, ∀ t < hb + 1, 1 ≤ t → (hops b).testBit t = true →
      b + t - 1 ≠ hole ∧ hops (b + t - 1) % 2 = 1 ∧
      bucketOf hash n (keyOf (ent (b + t - 1))) = b) ∧
  (∀ j < n + hb, hops j % 2 = 1 → j ≠ hole →
      ∃ t < hb + 1, 1 ≤ t ∧ bucketOf hash n (keyOf (ent j)) + t - 1 = j ∧
        (hops (bucketOf hash n (keyOf (ent j)))).testBit t = true) ∧
  (∀ i < n + hb, ∀ j < n + hb, i ≠ hole → j ≠ hole →
      hops i % 2 = 1 → hops j % 2 = 1 →
      keyOf (ent i) = keyOf (ent j) → i = j)

/-- One step of claim C1's operation sequences: apply inserts and erases in
order, threading the insertion fuel. -/
def runOps (hb : Nat) (hash : K → Nat) (keyOf : E → K) (dflt : E)
    (fuel : Nat) : List (E ⊕ K) → HopS E → Option (HopS E)
  | [], s => some s
  | Sum.inl e :: rest, s =>
    (insertF hb hash keyOf dflt fuel s e).bind fun r =>
      runOps hb hash keyOf dflt fuel rest r.2.2
  | Sum.inr k :: rest, s =>
    runOps hb hash keyOf dflt fuel rest (eraseK hb hash keyOf s k).2

/-- The abstract set of keys an operation sequence leaves live: inserts add
the key, erases remove it. -/
def modelMem (keyOf : E → K) : List (E ⊕ K) → (K → Bool) → K → Bool
  | [], m, x => m x
  | Sum.inl e :: rest, m, x =>
    modelMem keyOf rest (fun y => m y || decide (y = keyOf e)) x
  | Sum.inr k :: rest, m, x =>
    modelMem keyOf rest (fun y => m y && decide (y ≠ k)) x

/-- Modelled from the spec wording quoted by claim C9: a locate that, for
each set displacement bit `k ∈ 1..hop_bucket` of the word at `home`,
compares the key stored at slot `home + k` (not `home + k - 1`), returning
that slot on equality and the sentinel `capacity + hop_bucket` otherwise,
scanning bits in ascending order. -/
def specLocate (hb : Nat) (keyOf : E → K) (s : HopS E) (home : Nat)
    (k : K) : Nat :=
  match (List.range hb).find? (fun u =>
      (s.hops home).testBit (u + 1) &&
        decide (keyOf (s.entries (home + u + 1)) = k)) with
  | some u => home + u + 1
  | none => s.capacity + hb

/-- The corrected form of the spec sentence checked by claim C9: the same
bit-by-bit scan, but comparing the key stored at slot `home + k - 1` for the
displacement bit `k` (written with `u := k - 1` ranging over `0..hop_bucket-1`,
so the examined slot is `home + u`), which is what `find_internal` reads. -/
def specLocateFixed (hb : Nat) (keyOf : E → K) (s : HopS E) (home : Nat)
    (k : K) : Nat :=
  match (List.range hb).find? (fun u =>
      (s.hops home).testBit (u + 1) &&
        decide (keyOf (s.entries (home + u)) = k)) with
  | some u => home + u
  | none => s.capacity + hb

instance decidableMemP (hb : Nat) (keyOf : E → K) (s : HopS E) (x : K) :
    Decidable (memP hb keyOf s x) := by
  unfold memP; infer_instance

set_option synthInstance.maxSize 8192 in
instance decidableWF (hb : Nat) (hash : K → Nat) (keyOf : E → K)
    (s : HopS E) : Decidable (WF hb hash keyOf s) := by
  unfold WF; infer_instance

/-- Postcondition of a completed `insert` call on a well-formed table:
the result is well-formed; membership gains exactly the new key (when it
was inserted); the boolean reports `false` exactly when the key was
already present, in which case the table is returned unchanged together
with the key's existing position; and the capacity has been multiplied by
a power of two (one doubling per growth). -/
def InsertOut (hb : Nat) (hash : K → Nat) (keyOf : E → K) (s : HopS E)
    (e : E) (r : Bool × Nat × HopS E) : Prop :=
  WF hb hash keyOf r.2.2 ∧
  (∀ x, memP hb keyOf r.2.2 x ↔
    (memP hb keyOf s x ∨ (r.1 = true ∧ x = keyOf e))) ∧
  (r.1 = false ↔ memP hb keyOf s (keyOf e)) ∧
  (r.1 = false → r.2.2 = s ∧ r.2.1 = findIndex hb hash keyOf s (keyOf e)) ∧
  (∃ m, r.2.2.capacity = 2 ^ m * s.capacity)

end Invariant

section BitLemmas

theorem mod_two_eq_one_iff_testBit (n : Nat) : n % 2 = 1 ↔ n.testBit 0 = true := by
  rw [Nat.testBit_zero, decide_eq_true_iff]

theorem wset_lt (hb w : Nat) : wset hb w < 2 ^ (hb + 1) :=
  Nat.mod_lt _ (Nat.pos_pow_of_pos _ (by omega))

theorem wset_eq_of_lt {hb w : Nat} (h : w < 2 ^ (hb + 1)) : wset hb w = w :=
  Nat.mod_eq_of_lt h

theorem wset_mod_two (hb w : Nat) : wset hb w % 2 = w % 2 := by
  have h2 : (2 : Nat) ∣ 2 ^ (hb + 1) := dvd_pow_self 2 (by omega)
  exact Nat.mod_mod_of_dvd w h2

theorem testBit_two_pow_eq (t u : Nat) :
    (2 ^ t : Nat).testBit u = decide (u = t) := by
  rcases eq_or_ne u t with h | h
  · subst h; simp [Nat.testBit_two_pow_self]
  · simp [Nat.testBit_two_pow_of_ne (Ne.symm h), h]

theorem testBit_or_two_pow (w t u : Nat) :
    (w ||| 2 ^ t).testBit u = (w.testBit u || decide (u = t)) := by
  rw [Nat.testBit_lor, testBit_two_pow_eq]

theorem testBit_xor_two_pow (w t u : Nat) :
    (w ^^^ 2 ^ t).testBit u = ((w.testBit u).xor (decide (u = t))) := by
  rw [Nat.testBit_xor, testBit_two_pow_eq]

theorem or_two_pow_lt {n w t : Nat} (hw : w < 2 ^ n) (ht : t < n) :
    w ||| 2 ^ t < 2 ^ n :=
  Nat.or_lt_two_pow hw (Nat.pow_lt_pow_right (by omega) ht)

theorem xor_two_pow_lt {n w t : Nat} (hw : w < 2 ^ n) (ht : t < n) :
    w ^^^ 2 ^ t < 2 ^ n :=
  Nat.xor_lt_two_pow hw (Nat.pow_lt_pow_right (by omega) ht)

theorem testBit_high_of_lt {w n u : Nat} (hw : w < 2 ^ n) (hu : n ≤ u) :
    w.testBit u = false :=
  Nat.testBit_lt_two_pow (lt_of_lt_of_le hw (Nat.pow_le_pow_right (by omega) hu))

theorem testBit_zero_false_iff (n : Nat) : n.testBit 0 = false ↔ n % 2 = 0 := by
  rw [Nat.testBit_zero]
  rcases Nat.mod_two_eq_zero_or_one n with h | h <;> simp [h]

theorem mod_two_eq_of_testBit_zero {n m : Nat} (h : n.testBit 0 = m.testBit 0) :
    n % 2 = m % 2 := by
  rw [Nat.testBit_zero, Nat.testBit_zero] at h
  rcases Nat.mod_two_eq_zero_or_one n with h1 | h1 <;>
    rcases Nat.mod_two_eq_zero_or_one m with h2 | h2 <;>
      simp [h1, h2] at h ⊢

theorem parity_or_two_pow {w t : Nat} (ht : 1 ≤ t) :
    (w ||| 2 ^ t) % 2 = w % 2 := by
  apply mod_two_eq_of_testBit_zero
  rw [testBit_or_two_pow]
  simp [show ¬ (0 = t) by omega]

theorem parity_xor_two_pow {w t : Nat} (ht : 1 ≤ t) :
    (w ^^^ 2 ^ t) % 2 = w % 2 := by
  apply mod_two_eq_of_testBit_zero
  rw [testBit_xor_two_pow]
  simp [show ¬ (0 = t) by omega]

theorem parity_or_one (w : Nat) : (w ||| 2 ^ 0) % 2 = 1 := by
  rw [mod_two_eq_one_iff_testBit, testBit_or_two_pow]
  simp

theorem parity_xor_one_of_odd {w : Nat} (h : w % 2 = 1) :
    (w ^^^ 2 ^ 0) % 2 = 0 := by
  rw [← testBit_zero_false_iff, testBit_xor_two_pow]
  rw [mod_two_eq_one_iff_testBit] at h
  simp [h]

end BitLemmas

section FindLemmas

variable {E K : Type} [DecidableEq K]

theorem findLoop_spec (keyOf : E → K) (ent : Nat → E) (k : K) (sent : Nat) :
    ∀ c w index, w < 2 ^ c →
    (findLoop keyOf ent c w index k sent = sent ∧
      ∀ d, w.testBit d = true → keyOf (ent (index + d)) ≠ k) ∨
    (∃ d, w.testBit d = true ∧ keyOf (ent (index + d)) = k ∧
      findLoop keyOf ent c w index k sent = index + d ∧
      ∀ d' < d, w.testBit d' = true → keyOf (ent (index + d')) ≠ k) := by
  intro c
  induction c with
  | zero =>
    intro w index hw
    left
    have hw0 : w = 0 := by omega
    subst hw0
    exact ⟨rfl, fun d hd => by simp [Nat.zero_testBit] at hd⟩
  | succ c ih =>
    intro w index hw
    by_cases h0 : w = 0
    · subst h0
      left
      refine ⟨by simp [findLoop], fun d hd => by simp [Nat.zero_testBit] at hd⟩
    · by_cases hm : w % 2 = 1 ∧ keyOf (ent index) = k
      · right
        refine ⟨0, ?_, by simpa using hm.2, ?_, fun d' hd' => by omega⟩
        · rw [← mod_two_eq_one_iff_testBit]; exact hm.1
        · simp [findLoop, h0, hm]
      · have hrec : findLoop keyOf ent (c + 1) w index k sent
            = findLoop keyOf ent c (w / 2) (index + 1) k sent := by
          simp only [findLoop]
          rw [if_neg h0, if_neg hm]
        have hw2 : w / 2 < 2 ^ c := by
          rw [Nat.pow_succ] at hw; omega
        rcases ih (w / 2) (index + 1) hw2 with ⟨hs, hnone⟩ | ⟨d, hbit, hkey, hres, hmin⟩
        · left
          refine ⟨by rw [hrec]; exact hs, ?_⟩
          intro d hd
          match d with
          | 0 =>
            intro hk
            rw [← mod_two_eq_one_iff_testBit] at hd
            exact hm ⟨hd, by simpa using hk⟩
          | d + 1 =>
            rw [Nat.testBit_succ] at hd
            have h1 := hnone d hd
            intro hk
            apply h1
            rw [show index + 1 + d = index + (d + 1) by omega]
            exact hk
        · right
          refine ⟨d + 1, ?_, ?_, ?_, ?_⟩
          · rw [Nat.testBit_succ]; exact hbit
          · rw [show index + (d + 1) = index + 1 + d by omega]; exact hkey
          · rw [hrec, hres]; omega
          · intro d' hd' hb2
            match d' with
            | 0 =>
              intro hk
              rw [← mod_two_eq_one_iff_testBit] at hb2
              exact hm ⟨hb2, by simpa using hk⟩
            | d' + 1 =>
              rw [Nat.testBit_succ] at hb2
              have h1 := hmin d' (by omega) hb2
              intro hk
              apply h1
              rw [show index + 1 + d' = index + (d' + 1) by omega]
              exact hk

theorem hasK_iff (hb : Nat) (hash : K → Nat) (keyOf : E → K) (s : HopS E)
    (k : K) :
    hasK hb hash keyOf s k = true ↔
      findIndex hb hash keyOf s k ≠ s.capacity + hb := by
  simp [hasK, findIndex]

theorem memB_iff_memP (hb : Nat) (keyOf : E → K) (s : HopS E) (x : K) :
    memB hb keyOf s x = true ↔ memP hb keyOf s x := by
  simp [memB, memP, List.any_eq_true, List.mem_range]

theorem bucketOf_lt (hash : K → Nat) {n : Nat} (hn : 1 ≤ n) (k : K) :
    bucketOf hash n k < n :=
  lt_of_le_of_lt Nat.and_le_right (by omega)

theorem findInternal_correct (hb : Nat) (hash : K → Nat) (keyOf : E → K)
    (s : HopS E) (k : K) (hhb : 1 ≤ hb) (hwf : WF hb hash keyOf s) :
    (findIndex hb hash keyOf s k = s.capacity + hb ∧ ¬ memP hb keyOf s k) ∨
    (findIndex hb hash keyOf s k < s.capacity + hb ∧
      s.hops (findIndex hb hash keyOf s k) % 2 = 1 ∧
      keyOf (s.entries (findIndex hb hash keyOf s k)) = k ∧
      bucketOf hash s.capacity k ≤ findIndex hb hash keyOf s k ∧
      findIndex hb hash keyOf s k + 1 ≤ bucketOf hash s.capacity k + hb ∧
      memP hb keyOf s k) := by
  obtain ⟨hcap, hwidth, hpoints, hreg, hinj, hsize⟩ := hwf
  set home := bucketOf hash s.capacity k with hhome
  have hhlt : home < s.capacity := bucketOf_lt hash hcap k
  set w := s.hops home >>> 1 with hw
  have hwlt : w < 2 ^ hb := by
    have h1 : s.hops home < 2 ^ (hb + 1) := hwidth home (by omega)
    rw [hw, Nat.shiftRight_eq_div_pow]
    rw [Nat.pow_succ] at h1
    omega
  have hfi : findIndex hb hash keyOf s k
      = findLoop keyOf s.entries w w home k (s.capacity + hb) := rfl
  rcases findLoop_spec keyOf s.entries k (s.capacity + hb) w w home
      (Nat.lt_two_pow w) with ⟨hs, hnone⟩ | ⟨d, hbit, hkey, hres, _⟩
  · left
    refine ⟨by rw [hfi]; exact hs, ?_⟩
    rintro ⟨j, hj, hocc, hkeyj⟩
    obtain ⟨t, ht, ht1, hslot, hbit⟩ := hreg j hj hocc
    rw [hkeyj, ← hhome] at hslot hbit
    have hbw : w.testBit (t - 1) = true := by
      rw [hw, Nat.testBit_shiftRight, show 1 + (t - 1) = t by omega]
      exact hbit
    apply hnone (t - 1) hbw
    rw [show home + (t - 1) = j by omega, hkeyj]
  · right
    have hdlt : d < hb := by
      by_contra hge
      rw [testBit_high_of_lt hwlt (by omega)] at hbit
      exact Bool.false_ne_true hbit
    have hbw : (s.hops home).testBit (d + 1) = true := by
      rw [hw, Nat.testBit_shiftRight] at hbit
      rw [show d + 1 = 1 + d by omega]
      exact hbit
    have hp := hpoints home (by omega) (d + 1) (by omega) (by omega) hbw
    have hslot : home + (d + 1) - 1 = home + d := by omega
    rw [hslot] at hp
    have hfind : findIndex hb hash keyOf s k = home + d := by rw [hfi, hres]
    rw [hfind]
    refine ⟨by omega, hp.1, hkey, by omega, by omega, ?_⟩
    exact ⟨home + d, by omega, hp.1, hkey⟩

end FindLemmas

section LoopLemmas

theorem probeLoop_spec (hops : Nat → Nat) :
    ∀ c idx pe, pe ≤ c + idx → idx ≤ pe →
      idx ≤ probeLoop hops c idx pe ∧ probeLoop hops c idx pe ≤ pe ∧
        (probeLoop hops c idx pe < pe →
          hops (probeLoop hops c idx pe) % 2 ≠ 1) := by
  intro c
  induction c with
  | zero =>
    intro idx pe hc hip
    have hpe : probeLoop hops 0 idx pe = idx := rfl
    rw [hpe]
    exact ⟨le_refl _, hip, fun h => by omega⟩
  | succ c ih =>
    intro idx pe hc hip
    by_cases h : idx < pe ∧ hops idx % 2 = 1
    · have heq : probeLoop hops (c + 1) idx pe = probeLoop hops c (idx + 1) pe := by
        simp only [probeLoop]
        rw [if_pos h]
      have h2 := ih (idx + 1) pe (by omega) (by omega)
      rw [heq]
      exact ⟨by omega, h2.2.1, h2.2.2⟩
    · have heq : probeLoop hops (c + 1) idx pe = idx := by
        simp only [probeLoop]
        rw [if_neg h]
      rw [heq]
      exact ⟨le_refl _, hip, fun hlt hocc => h ⟨hlt, hocc⟩⟩

theorem scanCursor_spec (hops : Nat → Nat) :
    ∀ c offset cursor, offset + 1 ≤ c + cursor → cursor ≤ offset + 1 →
      cursor ≤ scanCursor hops c offset cursor ∧
      scanCursor hops c offset cursor ≤ offset + 1 ∧
      (scanCursor hops c offset cursor ≤ offset →
        (hops (scanCursor hops c offset cursor)).testBit
          (offset - scanCursor hops c offset cursor + 1) = true) := by
  intro c
  induction c with
  | zero =>
    intro offset cursor hc hcu
    have heq : scanCursor hops 0 offset cursor = cursor := rfl
    rw [heq]
    exact ⟨le_refl _, hcu, fun h => by omega⟩
  | succ c ih =>
    intro offset cursor hc hcu
    by_cases h : cursor ≤ offset ∧ (hops cursor).testBit (offset - cursor + 1) = false
    · have heq : scanCursor hops (c + 1) offset cursor
          = scanCursor hops c offset (cursor + 1) := by
        simp only [scanCursor]
        rw [if_pos h]
      have h2 := ih offset (cursor + 1) (by omega) (by omega)
      rw [heq]
      exact ⟨by omega, h2.2.1, h2.2.2⟩
    · have heq : scanCursor hops (c + 1) offset cursor = cursor := by
        simp only [scanCursor]
        rw [if_neg h]
      rw [heq]
      refine ⟨le_refl _, hcu, fun hle => ?_⟩
      rcases Bool.eq_false_or_eq_true ((hops cursor).testBit (offset - cursor + 1))
          with ht | hf
      · exact ht
      · exact absurd ⟨hle, hf⟩ h

theorem scanOffset_spec (hops : Nat → Nat) (lookFirst idx : Nat) :
    ∀ c offset, idx ≤ c + offset → lookFirst ≤ offset →
      offset ≤ (scanOffset hops lookFirst idx c offset).1 ∧
      lookFirst ≤ (scanOffset hops lookFirst idx c offset).1 ∧
      (scanOffset hops lookFirst idx c offset).2
        = scanCursor hops ((scanOffset hops lookFirst idx c offset).1 + 1)
            (scanOffset hops lookFirst idx c offset).1 lookFirst ∧
      ((scanOffset hops lookFirst idx c offset).1 < idx →
        ¬ (scanOffset hops lookFirst idx c offset).1
            < (scanOffset hops lookFirst idx c offset).2) := by
  intro c
  induction c with
  | zero =>
    intro offset hc hlf
    have heq : scanOffset hops lookFirst idx 0 offset
        = (offset, scanCursor hops (offset + 1) offset lookFirst) := rfl
    rw [heq]
    exact ⟨le_refl _, hlf, rfl, fun h => by omega⟩
  | succ c ih =>
    intro offset hc hlf
    by_cases h : offset < idx ∧ offset < scanCursor hops (offset + 1) offset lookFirst
    · have heq : scanOffset hops lookFirst idx (c + 1) offset
          = scanOffset hops lookFirst idx c (offset + 1) := by
        simp only [scanOffset]
        rw [if_pos h]
      have h2 := ih (offset + 1) (by omega) (by omega)
      rw [heq]
      exact ⟨by omega, h2.2.1, h2.2.2.1, h2.2.2.2⟩
    · have heq : scanOffset hops lookFirst idx (c + 1) offset
          = (offset, scanCursor hops (offset + 1) offset lookFirst) := by
        simp only [scanOffset]
        rw [if_neg h]
      rw [heq]
      refine ⟨le_refl _, hlf, rfl, fun hlt hcur => h ⟨hlt, hcur⟩⟩

end LoopLemmas

section CascadeLemmas

variable {E K : Type} [DecidableEq K]

theorem cascade_step (hb : Nat) (hash : K → Nat) (keyOf : E → K) (n bi : Nat)
    (hhb : 1 ≤ hb) (ent : Nat → E) (hops : Nat → Nat) (idx offset cursor : Nat)
    (H : HoleInv hb hash keyOf n ent hops idx)
    (hloop : bi + hb ≤ idx)
    (hlf : idx - hb + 1 ≤ cursor)
    (hco : cursor ≤ offset) (hoi : offset < idx)
    (hbit : (hops cursor).testBit (offset - cursor + 1) = true) :
    HoleInv hb hash keyOf n
      (Function.update ent idx (ent offset))
      (xorBit hb (orBit hb hops cursor (idx - cursor + 1)) cursor
        (offset - cursor + 1))
      offset ∧
    bi + 1 ≤ offset ∧
    (∀ i, (xorBit hb (orBit hb hops cursor (idx - cursor + 1)) cursor
        (offset - cursor + 1)) i % 2 = hops i % 2) ∧
    (∀ x, memRf hb hash keyOf n (Function.update ent idx (ent offset))
        (xorBit hb (orBit hb hops cursor (idx - cursor + 1)) cursor
          (offset - cursor + 1)) x ↔
      memRf hb hash keyOf n ent hops x) := by
  obtain ⟨hn, hholeLt, hoccHole, hwidth, hpoints, hreg, hinj⟩ := H
  set t1 := idx - cursor + 1 with ht1def
  set t2 := offset - cursor + 1 with ht2def
  set w := hops cursor with hwdef
  have hcurL : cursor < n + hb := by omega
  have hwlt : w < 2 ^ (hb + 1) := hwidth cursor hcurL
  have ht1b : 2 ≤ t1 ∧ t1 ≤ hb := by omega
  have ht2b : 1 ≤ t2 ∧ t2 ≤ hb := by omega
  have ht12 : t1 ≠ t2 := by omega
  -- the candidate entry: slot `offset`, homed at `cursor`
  have hOff := hpoints cursor hcurL t2 (by omega) (by omega) hbit
  rw [show cursor + t2 - 1 = offset by omega] at hOff
  obtain ⟨hoffIdx, hoccOff, hhomeOff⟩ := hOff
  -- the new bit is currently clear: nothing points at the hole
  have hbitT1 : w.testBit t1 = false := by
    rcases Bool.eq_false_or_eq_true (w.testBit t1) with ht | hf
    · have h1 := hpoints cursor hcurL t1 (by omega) (by omega) ht
      rw [show cursor + t1 - 1 = idx by omega] at h1
      exact absurd rfl h1.1
    · exact hf
  -- the updated word
  set w2 := (w ||| 2 ^ t1) ^^^ 2 ^ t2 with hw2def
  have hw2lt : w2 < 2 ^ (hb + 1) :=
    xor_two_pow_lt (or_two_pow_lt hwlt (by omega)) (by omega)
  have hupd : xorBit hb (orBit hb hops cursor t1) cursor t2
      = Function.update hops cursor w2 := by
    unfold xorBit orBit
    rw [Function.update_same, Function.update_idem,
      wset_eq_of_lt (or_two_pow_lt hwlt (by omega)),
      wset_eq_of_lt hw2lt]
  rw [hupd]
  set ent' := Function.update ent idx (ent offset) with hent'
  set hops' := Function.update hops cursor w2 with hhops'
  have htb : ∀ u, w2.testBit u
      = ((w.testBit u || decide (u = t1)).xor (decide (u = t2))) := by
    intro u
    rw [hw2def, testBit_xor_two_pow, testBit_or_two_pow]
  have htbT1 : w2.testBit t1 = true := by
    rw [htb t1, hbitT1]
    simp [ht12]
  have htbT2 : w2.testBit t2 = false := by
    rw [htb t2, hbit]
    simp
  have htbO : ∀ u, u ≠ t1 → u ≠ t2 → w2.testBit u = w.testBit u := by
    intro u h1 h2
    rw [htb u]
    simp [h1, h2]
  have hpar : ∀ i, hops' i % 2 = hops i % 2 := by
    intro i
    by_cases hic : i = cursor
    · subst hic
      rw [hhops', Function.update_same, hw2def]
      rw [parity_xor_two_pow (by omega), parity_or_two_pow (by omega)]
    · rw [hhops', Function.update_noteq hic]
  have hhopsAt : ∀ i, i ≠ cursor → hops' i = hops i := by
    intro i hic
    rw [hhops', Function.update_noteq hic]
  have hentAt : ∀ i, i ≠ idx → ent' i = ent i := by
    intro i hic
    rw [hent', Function.update_noteq hic]
  have hentIdx : ent' idx = ent offset := by
    rw [hent', Function.update_same]
  have hcur2 : idx ≠ cursor := by omega
  -- the new points clause
  have hpoints' : ∀ b < n + hb, ∀ t < hb + 1, 1 ≤ t →
      (hops' b).testBit t = true →
      b + t - 1 ≠ offset ∧ hops' (b + t - 1) % 2 = 1 ∧
      bucketOf hash n (keyOf (ent' (b + t - 1))) = b := by
    intro b hbL t htL ht1' hbit'
    by_cases hbc : b = cursor
    · rw [hbc] at hbit' ⊢
      rw [hhops', Function.update_same] at hbit'
      by_cases h1 : t = t1
      · subst h1
        rw [show cursor + t1 - 1 = idx by omega]
        refine ⟨by omega, by rw [hpar idx]; exact hoccHole, ?_⟩
        rw [hentIdx, hhomeOff]
      · by_cases h2 : t = t2
        · subst h2
          rw [htbT2] at hbit'
          exact absurd hbit' (by simp)
        · rw [htbO t h1 h2] at hbit'
          have h3 := hpoints cursor hcurL t htL ht1' hbit'
          obtain ⟨hne, hocc2, hhome2⟩ := h3
          have hso : cursor + t - 1 ≠ offset := by omega
          refine ⟨hso, by rw [hpar]; exact hocc2, ?_⟩
          rw [hentAt _ hne, hhome2]
    · rw [hhopsAt b hbc] at hbit'
      have h3 := hpoints b hbL t htL ht1' hbit'
      obtain ⟨hne, hocc2, hhome2⟩ := h3
      have hso : b + t - 1 ≠ offset := by
        intro he
        rw [he, hhomeOff] at hhome2
        exact hbc hhome2.symm
      refine ⟨hso, by rw [hpar]; exact hocc2, ?_⟩
      rw [hentAt _ hne, hhome2]
  refine ⟨⟨hn, by omega, by rw [hpar offset]; exact hoccOff, ?_, hpoints', ?_, ?_⟩,
      by omega, hpar, ?_⟩
  · -- width
    intro i hiL
    by_cases hic : i = cursor
    · subst hic
      rw [hhops', Function.update_same]
      exact hw2lt
    · rw [hhopsAt i hic]
      exact hwidth i hiL
  · -- registration
    intro j hjL hocc' hjo
    rw [hpar j] at hocc'
    by_cases hj : j = idx
    · subst hj
      refine ⟨t1, by omega, by omega, ?_, ?_⟩
      · rw [hentIdx, hhomeOff]
        omega
      · rw [hentIdx, hhomeOff, hhops', Function.update_same]
        exact htbT1
    · obtain ⟨t, htL, ht1', hslot, hbit0⟩ := hreg j hjL hocc' hj
      rw [hentAt j hj]
      set home0 := bucketOf hash n (keyOf (ent j)) with hhome0
      by_cases hh : home0 = cursor
      · rw [hh] at hslot hbit0 ⊢
        have hT2 : t ≠ t2 := by
          intro he
          rw [he] at hslot
          exact hjo (by omega)
        have hT1 : t ≠ t1 := by
          intro he
          rw [he] at hslot
          exact hj (by omega)
        refine ⟨t, htL, ht1', hslot, ?_⟩
        rw [hhops', Function.update_same, htbO t hT1 hT2]
        exact hbit0
      · exact ⟨t, htL, ht1', hslot, by rw [hhopsAt home0 hh]; exact hbit0⟩
  · -- injectivity
    intro i hiL j hjL hio hjo hocci hoccj hkey
    rw [hpar i] at hocci
    rw [hpar j] at hoccj
    by_cases hi : i = idx <;> by_cases hj : j = idx
    · rw [hi, hj]
    · rw [hi, hentIdx] at hkey
      rw [hentAt j hj] at hkey
      have h4 := hinj offset (by omega) j hjL (by omega) hj hoccOff hoccj hkey
      exact absurd h4.symm hjo
    · rw [hj, hentIdx] at hkey
      rw [hentAt i hi] at hkey
      have h4 := hinj i hiL offset (by omega) hi (by omega) hocci hoccOff hkey
      exact absurd h4 hio
    · rw [hentAt i hi, hentAt j hj] at hkey
      exact hinj i hiL j hjL hi hj hocci hoccj hkey
  · -- memRf preservation
    intro x
    constructor
    · rintro ⟨b, hbL, t, htL, ht1', hbit', hkey'⟩
      by_cases hbc : b = cursor
      · rw [hbc] at hbit' hkey'
        rw [hhops', Function.update_same] at hbit'
        by_cases h1 : t = t1
        · subst h1
          rw [show cursor + t1 - 1 = idx by omega, hentIdx] at hkey'
          exact ⟨cursor, hcurL, t2, by omega, by omega, hbit,
            by rw [show cursor + t2 - 1 = offset by omega]; exact hkey'⟩
        · by_cases h2 : t = t2
          · subst h2
            rw [htbT2] at hbit'
            exact absurd hbit' (by simp)
          · rw [htbO t h1 h2] at hbit'
            have h3 := hpoints cursor hcurL t htL ht1' hbit'
            rw [hentAt _ h3.1] at hkey'
            exact ⟨cursor, hcurL, t, htL, ht1', hbit', hkey'⟩
      · rw [hhopsAt b hbc] at hbit'
        have h3 := hpoints b hbL t htL ht1' hbit'
        rw [hentAt _ h3.1] at hkey'
        exact ⟨b, hbL, t, htL, ht1', hbit', hkey'⟩
    · rintro ⟨b, hbL, t, htL, ht1', hbit', hkey'⟩
      by_cases hbc : b = cursor
      · rw [hbc] at hbit' hkey'
        by_cases h2 : t = t2
        · subst h2
          rw [show cursor + t2 - 1 = offset by omega] at hkey'
          refine ⟨cursor, hcurL, t1, by omega, by omega, ?_, ?_⟩
          · rw [hhops', Function.update_same]
            exact htbT1
          · rw [show cursor + t1 - 1 = idx by omega, hentIdx]
            exact hkey'
        · by_cases h1 : t = t1
          · subst h1
            rw [hbitT1] at hbit'
            exact absurd hbit' (by simp)
          · have h3 := hpoints cursor hcurL t htL ht1' hbit'
            refine ⟨cursor, hcurL, t, htL, ht1', ?_, ?_⟩
            · rw [hhops', Function.update_same, htbO t h1 h2]
              exact hbit'
            · rw [hentAt _ h3.1]
              exact hkey'
      · have h3 := hpoints b hbL t htL ht1' hbit'
        refine ⟨b, hbL, t, htL, ht1', ?_, ?_⟩
        · rw [hhopsAt b hbc]
          exact hbit'
        · rw [hentAt _ h3.1]
          exact hkey'

theorem cascadeLoop_spec (hb : Nat) (hash : K → Nat) (keyOf : E → K)
    (n bi : Nat) (hhb : 1 ≤ hb) :
    ∀ c ent hops idx fi ent2 hops2,
      idx < c → bi ≤ idx →
      HoleInv hb hash keyOf n ent hops idx →
      cascadeLoop hb bi c ent hops idx = some (fi, ent2, hops2) →
      HoleInv hb hash keyOf n ent2 hops2 fi ∧
      bi ≤ fi ∧ fi + 1 ≤ bi + hb ∧
      (∀ i, hops2 i % 2 = hops i % 2) ∧
      (∀ x, memRf hb hash keyOf n ent2 hops2 x ↔
        memRf hb hash keyOf n ent hops x) := by
  intro c
  induction c with
  | zero =>
    intro ent hops idx fi ent2 hops2 hc
    omega
  | succ c ih =>
    intro ent hops idx fi ent2 hops2 hc hbi H heq
    by_cases hguard : bi + hb - 1 < idx
    · have hloop : bi + hb ≤ idx := by omega
      have hidxhb : ¬ idx < hb := by omega
      set lf := idx - hb + 1 with hlfdef
      rcases hsc : scanOffset hops lf idx idx lf with ⟨offset, cursor⟩
      have heq2 : cascadeLoop hb bi (c + 1) ent hops idx
          = (if offset < idx then
              cascadeLoop hb bi c (Function.update ent idx (ent offset))
                (xorBit hb (orBit hb hops cursor (idx - cursor + 1)) cursor
                  (offset - cursor + 1)) offset
            else none) := by
        simp only [cascadeLoop]
        rw [if_pos hguard, if_neg hidxhb, ← hlfdef, hsc]
      rw [heq2] at heq
      by_cases hoi : offset < idx
      · rw [if_pos hoi] at heq
        have hsos := scanOffset_spec hops lf idx idx lf (by omega) (le_refl _)
        rw [hsc] at hsos
        dsimp only at hsos
        obtain ⟨hoff1, hoff2, hcureq, hexit⟩ := hsos
        have hnc : ¬ offset < cursor := hexit hoi
        have hscs := scanCursor_spec hops (offset + 1) offset lf (by omega)
          (by omega)
        rw [← hcureq] at hscs
        obtain ⟨hc1, hc2, hc3⟩ := hscs
        have hcle : cursor ≤ offset := by omega
        have hbit := hc3 hcle
        have hstep := cascade_step hb hash keyOf n bi hhb ent hops idx offset
          cursor H hloop (by omega) hcle hoi hbit
        obtain ⟨H', hbio, hpar, hmem⟩ := hstep
        have hrec := ih _ _ offset fi ent2 hops2 (by omega) (by omega) H' heq
        obtain ⟨Hf, hf1, hf2, hparf, hmemf⟩ := hrec
        exact ⟨Hf, hf1, hf2, fun i => by rw [hparf i, hpar i],
          fun x => (hmemf x).trans (hmem x)⟩
      · rw [if_neg hoi] at heq
        exact absurd heq (by simp)
    · have heq2 : cascadeLoop hb bi (c + 1) ent hops idx
          = some (idx, ent, hops) := by
        simp only [cascadeLoop]
        rw [if_neg hguard]
      rw [heq2] at heq
      cases heq
      exact ⟨H, hbi, by omega, fun i => rfl, fun x => Iff.rfl⟩

end CascadeLemmas

section StateLemmas

variable {E K : Type} [DecidableEq K]

theorem or_two_pow_eq_self {w t : Nat} (h : w.testBit t = true) :
    w ||| 2 ^ t = w := by
  apply Nat.eq_of_testBit_eq
  intro u
  rw [testBit_or_two_pow]
  by_cases hu : u = t
  · subst hu; simp [h]
  · simp [hu]

theorem countOcc_eq_of_parity {hb : Nat} {s s' : HopS E}
    (hcap : s'.capacity = s.capacity)
    (h : ∀ i < s.capacity + hb, s'.hops i % 2 = s.hops i % 2) :
    countOcc hb s' = countOcc hb s := by
  unfold countOcc
  rw [hcap]
  congr 1
  apply Finset.filter_congr
  intro i hi
  rw [Finset.mem_range] at hi
  rw [h i hi]

theorem countOcc_succ_of_flip {hb : Nat} {s s' : HopS E} (idx : Nat)
    (hcap : s'.capacity = s.capacity) (hidx : idx < s.capacity + hb)
    (h0 : s.hops idx % 2 = 0) (h1 : s'.hops idx % 2 = 1)
    (h : ∀ i < s.capacity + hb, i ≠ idx → s'.hops i % 2 = s.hops i % 2) :
    countOcc hb s' = countOcc hb s + 1 := by
  unfold countOcc
  rw [hcap]
  have hins : (Finset.range (s.capacity + hb)).filter (fun i => s'.hops i % 2 = 1)
      = insert idx ((Finset.range (s.capacity + hb)).filter
          (fun i => s.hops i % 2 = 1)) := by
    ext x
    simp only [Finset.mem_filter, Finset.mem_insert, Finset.mem_range]
    constructor
    · rintro ⟨hx, hocc⟩
      by_cases hxi : x = idx
      · exact Or.inl hxi
      · exact Or.inr ⟨hx, by rw [← h x hx hxi]; exact hocc⟩
    · rintro (hxi | ⟨hx, hocc⟩)
      · subst hxi; exact ⟨hidx, h1⟩
      · by_cases hxi : x = idx
        · subst hxi; omega
        · exact ⟨hx, by rw [h x hx hxi]; exact hocc⟩
  rw [hins, Finset.card_insert_of_not_mem]
  simp only [Finset.mem_filter, Finset.mem_range]
  rintro ⟨h2, h3⟩
  omega

theorem countOcc_add_one_of_clear {hb : Nat} {s s' : HopS E} (idx : Nat)
    (hcap : s'.capacity = s.capacity) (hidx : idx < s.capacity + hb)
    (h0 : s.hops idx % 2 = 1) (h1 : s'.hops idx % 2 = 0)
    (h : ∀ i < s.capacity + hb, i ≠ idx → s'.hops i % 2 = s.hops i % 2) :
    countOcc hb s' + 1 = countOcc hb s := by
  unfold countOcc
  rw [hcap]
  have hins : (Finset.range (s.capacity + hb)).filter (fun i => s.hops i % 2 = 1)
      = insert idx ((Finset.range (s.capacity + hb)).filter
          (fun i => s'.hops i % 2 = 1)) := by
    ext x
    simp only [Finset.mem_filter, Finset.mem_insert, Finset.mem_range]
    constructor
    · rintro ⟨hx, hocc⟩
      by_cases hxi : x = idx
      · exact Or.inl hxi
      · exact Or.inr ⟨hx, by rw [h x hx hxi]; exact hocc⟩
    · rintro (hxi | ⟨hx, hocc⟩)
      · subst hxi; exact ⟨hidx, h0⟩
      · by_cases hxi : x = idx
        · subst hxi; omega
        · exact ⟨hx, by rw [← h x hx hxi]; exact hocc⟩
  rw [hins, Finset.card_insert_of_not_mem]
  simp only [Finset.mem_filter, Finset.mem_range]
  rintro ⟨h2, h3⟩
  omega

theorem WF_fresh (hb : Nat) (hash : K → Nat) (keyOf : E → K) (dflt : E)
    {n : Nat} (hn : 1 ≤ n) :
    WF hb hash keyOf
      { entries := fun _ => dflt, hops := fun _ => 0, size := 0,
        capacity := n } := by
  refine ⟨hn, ?_, ?_, ?_, ?_, ?_⟩
  · intro i _
    exact Nat.pos_pow_of_pos _ (by omega)
  · intro b _ t _ _ hbit
    rw [Nat.zero_testBit] at hbit
    exact absurd hbit (by simp)
  · intro j _ hocc
    simp at hocc
  · intro i _ j _ hocc
    simp at hocc
  · show 0 = countOcc hb _
    unfold countOcc
    simp

theorem memP_fresh (hb : Nat) (keyOf : E → K) (dflt : E) (n : Nat) (x : K) :
    ¬ memP hb keyOf
      { entries := fun _ => dflt, hops := fun _ => 0, size := 0,
        capacity := n } x := by
  rintro ⟨j, _, hocc, _⟩
  simp at hocc

theorem memRf_iff_memP {hb : Nat} {hash : K → Nat} {keyOf : E → K}
    {s : HopS E} (hwf : WF hb hash keyOf s) (x : K) :
    memRf hb hash keyOf s.capacity s.entries s.hops x ↔ memP hb keyOf s x := by
  obtain ⟨hcap, hwidth, hpoints, hreg, hinj, hsize⟩ := hwf
  constructor
  · rintro ⟨b, hbL, t, htL, ht1, hbit, hkey⟩
    have h := hpoints b hbL t htL ht1 hbit
    have hblt : b < s.capacity := by
      rw [← h.2]
      exact bucketOf_lt hash hcap _
    exact ⟨b + t - 1, by omega, h.1, hkey⟩
  · rintro ⟨j, hjL, hocc, hkey⟩
    obtain ⟨t, htL, ht1, hslot, hbit⟩ := hreg j hjL hocc
    have hblt : bucketOf hash s.capacity (keyOf (s.entries j)) < s.capacity :=
      bucketOf_lt hash hcap _
    rw [hkey] at hslot hbit
    exact ⟨bucketOf hash s.capacity x, by omega, t, htL, ht1, hbit,
      by rw [hslot]; exact hkey⟩

end StateLemmas

section InsertLemmas

variable {E K : Type} [DecidableEq K]

theorem insertStep_eq (hb : Nat) (hash : K → Nat) (keyOf : E → K) (dflt : E)
    (prev : HopS E → E → Option (Bool × Nat × HopS E)) (s : HopS E) (e : E)
    (bi pe idx : Nat)
    (hbi : bi = bucketOf hash s.capacity (keyOf e))
    (hpe : pe = min (bi + probeMax hb) (s.capacity + hb))
    (hidx : idx = probeLoop s.hops pe bi pe) :
    insertStep hb hash keyOf dflt prev s e =
      (if findInternal hb keyOf s bi (keyOf e) ≠ s.capacity + hb then
        some (false, findInternal hb keyOf s bi (keyOf e), s)
      else if idx = pe then
        (expandF hb dflt prev s).bind fun s2 => prev s2 e
      else
        match cascadeLoop hb bi (idx + 1) s.entries
            (orBit hb s.hops idx 0) idx with
        | none =>
          (expandF hb dflt prev
            { s with hops := xorBit hb (orBit hb s.hops idx 0) idx 0 }).bind
            fun s2 => prev s2 e
        | some (fi, ent2, hops2) =>
          some (true, fi,
            { entries := Function.update ent2 fi e,
              hops := orBit hb (orBit hb hops2 fi 0) bi (fi - bi + 1),
              size := s.size + 1, capacity := s.capacity })) := by
  subst hbi
  subst hpe
  subst hidx
  rfl

theorem expandFold_spec (hb : Nat) (hash : K → Nat) (keyOf : E → K)
    (hhb : 1 ≤ hb) (ins : HopS E → E → Option (Bool × Nat × HopS E))
    (old : HopS E)
    (hins : ∀ s e r, WF hb hash keyOf s → ins s e = some r →
      InsertOut hb hash keyOf s e r) :
    ∀ l st s2, WF hb hash keyOf st →
      expandFold ins old l st = some s2 →
      WF hb hash keyOf s2 ∧
      (∀ x, memP hb keyOf s2 x ↔ (memP hb keyOf st x ∨
        ∃ i ∈ l, old.hops i % 2 = 1 ∧ keyOf (old.entries i) = x)) ∧
      (∃ m, s2.capacity = 2 ^ m * st.capacity) := by
  intro l
  induction l with
  | nil =>
    intro st s2 hwf heq
    cases heq
    exact ⟨hwf, by simp, ⟨0, by simp⟩⟩
  | cons i rest ih =>
    intro st s2 hwf heq
    by_cases hocc : old.hops i % 2 = 1
    · have heq2 : expandFold ins old (i :: rest) st
          = (ins st (old.entries i)).bind fun r =>
              expandFold ins old rest r.2.2 := by
        simp only [expandFold]
        rw [if_pos hocc]
      rw [heq2] at heq
      rcases Option.bind_eq_some.mp heq with ⟨r, hr1, hr2⟩
      have hout := hins st (old.entries i) r hwf hr1
      obtain ⟨hwf2, hmem2, hfalse2, _, m1, hcap2⟩ := hout
      have hrec := ih r.2.2 s2 hwf2 hr2
      obtain ⟨hwfF, hmemF, mF, hcapF⟩ := hrec
      refine ⟨hwfF, ?_, ⟨mF + m1, by rw [hcapF, hcap2, pow_add]; ring⟩⟩
      intro x
      rw [hmemF x]
      constructor
      · rintro (hm | ⟨j, hj, hjo, hjk⟩)
        · rcases (hmem2 x).mp hm with hm2 | ⟨_, hxk⟩
          · exact Or.inl hm2
          · exact Or.inr ⟨i, by simp, hocc, hxk.symm⟩
        · exact Or.inr ⟨j, by simp [hj], hjo, hjk⟩
      · rintro (hm | ⟨j, hj, hjo, hjk⟩)
        · exact Or.inl ((hmem2 x).mpr (Or.inl hm))
        · rcases List.mem_cons.mp hj with hji | hjr
          · subst hji
            rw [hjk] at *
            rcases Bool.eq_false_or_eq_true r.1 with ht | hf
            · exact Or.inl ((hmem2 _).mpr (Or.inr ⟨ht, rfl⟩))
            · exact Or.inl ((hmem2 _).mpr (Or.inl (hfalse2.mp hf)))
          · exact Or.inr ⟨j, hjr, hjo, hjk⟩
    · have heq2 : expandFold ins old (i :: rest) st
          = expandFold ins old rest st := by
        simp only [expandFold]
        rw [if_neg hocc]
      rw [heq2] at heq
      have hrec := ih st s2 hwf heq
      obtain ⟨hwfF, hmemF, hcapF⟩ := hrec
      refine ⟨hwfF, ?_, hcapF⟩
      intro x
      rw [hmemF x]
      constructor
      · rintro (hm | ⟨j, hj, hjo, hjk⟩)
        · exact Or.inl hm
        · exact Or.inr ⟨j, by simp [hj], hjo, hjk⟩
      · rintro (hm | ⟨j, hj, hjo, hjk⟩)
        · exact Or.inl hm
        · rcases List.mem_cons.mp hj with hji | hjr
          · subst hji
            exact absurd hjo hocc
          · exact Or.inr ⟨j, hjr, hjo, hjk⟩

theorem expandF_spec (hb : Nat) (hash : K → Nat) (keyOf : E → K) (dflt : E)
    (hhb : 1 ≤ hb) (ins : HopS E → E → Option (Bool × Nat × HopS E))
    (old : HopS E) (s2 : HopS E)
    (hins : ∀ s e r, WF hb hash keyOf s → ins s e = some r →
      InsertOut hb hash keyOf s e r)
    (hwf : WF hb hash keyOf old)
    (heq : expandF hb dflt ins old = some s2) :
    WF hb hash keyOf s2 ∧
    (∀ x, memP hb keyOf s2 x ↔ memP hb keyOf old x) ∧
    (∃ m, s2.capacity = 2 ^ m * old.capacity ∧ 1 ≤ m) := by
  unfold expandF at heq
  have hfold := expandFold_spec hb hash keyOf hhb ins old hins
    (List.range (old.capacity + hb)) _ s2
    (WF_fresh hb hash keyOf dflt (by have := hwf.1; omega)) heq
  obtain ⟨hwfF, hmemF, m, hcapF⟩ := hfold
  refine ⟨hwfF, ?_, ⟨m + 1, ?_, by omega⟩⟩
  · intro x
    rw [hmemF x]
    constructor
    · rintro (hm | ⟨j, hj, hjo, hjk⟩)
      · exact absurd hm (memP_fresh hb keyOf dflt _ x)
      · rw [List.mem_range] at hj
        exact ⟨j, hj, hjo, hjk⟩
    · rintro ⟨j, hj, hjo, hjk⟩
      exact Or.inr ⟨j, List.mem_range.mpr hj, hjo, hjk⟩
  · rw [hcapF]
    show 2 ^ m * (old.capacity * 2) = 2 ^ (m + 1) * old.capacity
    rw [pow_succ]
    ring

theorem holeInv_mark (hb : Nat) (hash : K → Nat) (keyOf : E → K)
    (s : HopS E) (idx : Nat) (hhb : 1 ≤ hb) (hwf : WF hb hash keyOf s)
    (hidxL : idx < s.capacity + hb) (heven : s.hops idx % 2 = 0) :
    HoleInv hb hash keyOf s.capacity s.entries (orBit hb s.hops idx 0) idx ∧
    (∀ i, i ≠ idx → (orBit hb s.hops idx 0) i % 2 = s.hops i % 2) ∧
    (orBit hb s.hops idx 0) idx % 2 = 1 ∧
    (∀ x, memRf hb hash keyOf s.capacity s.entries (orBit hb s.hops idx 0) x ↔
      memP hb keyOf s x) := by
  obtain ⟨hcap, hwidth, hpoints, hreg, hinj, hsize⟩ := hwf
  have hw : s.hops idx < 2 ^ (hb + 1) := hwidth idx hidxL
  have hupd : orBit hb s.hops idx 0
      = Function.update s.hops idx (s.hops idx ||| 2 ^ 0) := by
    unfold orBit
    rw [wset_eq_of_lt (or_two_pow_lt hw (by omega))]
  have hAt : ∀ i, i ≠ idx → (orBit hb s.hops idx 0) i = s.hops i := by
    intro i hi
    rw [hupd, Function.update_noteq hi]
  have hAtIdx : (orBit hb s.hops idx 0) idx = s.hops idx ||| 2 ^ 0 := by
    rw [hupd, Function.update_same]
  have hbits : ∀ b t, 1 ≤ t →
      ((orBit hb s.hops idx 0) b).testBit t = (s.hops b).testBit t := by
    intro b t ht
    by_cases hbidx : b = idx
    · subst hbidx
      rw [hAtIdx, testBit_or_two_pow]
      simp [show ¬ (t = 0) by omega]
    · rw [hAt b hbidx]
  have hparIdx : (orBit hb s.hops idx 0) idx % 2 = 1 := by
    rw [hAtIdx]
    exact parity_or_one _
  have hparAt : ∀ i, i ≠ idx →
      (orBit hb s.hops idx 0) i % 2 = s.hops i % 2 := by
    intro i hi
    rw [hAt i hi]
  refine ⟨⟨hcap, hidxL, hparIdx, ?_, ?_, ?_, ?_⟩, hparAt, hparIdx, ?_⟩
  · -- width
    intro i hiL
    by_cases hi : i = idx
    · subst hi
      rw [hAtIdx]
      exact or_two_pow_lt hw (by omega)
    · rw [hAt i hi]
      exact hwidth i hiL
  · -- points
    intro b hbL t htL ht1 hbit
    rw [hbits b t ht1] at hbit
    have hp := hpoints b hbL t htL ht1 hbit
    have hne : b + t - 1 ≠ idx := by
      intro he
      rw [he] at hp
      omega
    refine ⟨hne, ?_, hp.2⟩
    rw [hparAt _ hne]
    exact hp.1
  · -- registration
    intro j hjL hocc hjne
    rw [hparAt j hjne] at hocc
    obtain ⟨t, htL, ht1, hslot, hbit⟩ := hreg j hjL hocc
    exact ⟨t, htL, ht1, hslot, by rw [hbits _ t ht1]; exact hbit⟩
  · -- injectivity
    intro i hiL j hjL hine hjne hocci hoccj
    rw [hparAt i hine] at hocci
    rw [hparAt j hjne] at hoccj
    exact hinj i hiL j hjL hocci hoccj
  · -- membership
    intro x
    have hrf : memRf hb hash keyOf s.capacity s.entries (orBit hb s.hops idx 0) x
        ↔ memRf hb hash keyOf s.capacity s.entries s.hops x := by
      constructor
      · rintro ⟨b, hbL, t, htL, ht1, hbit, hkey⟩
        rw [hbits b t ht1] at hbit
        exact ⟨b, hbL, t, htL, ht1, hbit, hkey⟩
      · rintro ⟨b, hbL, t, htL, ht1, hbit, hkey⟩
        rw [← hbits b t ht1] at hbit
        exact ⟨b, hbL, t, htL, ht1, hbit, hkey⟩
    rw [hrf]
    exact memRf_iff_memP ⟨hcap, hwidth, hpoints, hreg, hinj, hsize⟩ x

theorem insert_finalize (hb : Nat) (hash : K → Nat) (keyOf : E → K)
    (s : HopS E) (e : E) (idx fi : Nat) (ent2 : Nat → E) (hops2 : Nat → Nat)
    (hhb : 1 ≤ hb) (hwf : WF hb hash keyOf s)
    (hH : HoleInv hb hash keyOf s.capacity ent2 hops2 fi)
    (hbif : bucketOf hash s.capacity (keyOf e) ≤ fi)
    (hfiw : fi + 1 ≤ bucketOf hash s.capacity (keyOf e) + hb)
    (hpar : ∀ i, hops2 i % 2 = (orBit hb s.hops idx 0) i % 2)
    (hidxL : idx < s.capacity + hb) (heven : s.hops idx % 2 = 0)
    (hmem2 : ∀ x, memRf hb hash keyOf s.capacity ent2 hops2 x ↔
      memP hb keyOf s x)
    (hnm : ¬ memP hb keyOf s (keyOf e)) :
    WF hb hash keyOf
      { entries := Function.update ent2 fi e,
        hops := orBit hb (orBit hb hops2 fi 0)
          (bucketOf hash s.capacity (keyOf e))
          (fi - bucketOf hash s.capacity (keyOf e) + 1),
        size := s.size + 1, capacity := s.capacity } ∧
    (∀ x, memP hb keyOf
      { entries := Function.update ent2 fi e,
        hops := orBit hb (orBit hb hops2 fi 0)
          (bucketOf hash s.capacity (keyOf e))
          (fi - bucketOf hash s.capacity (keyOf e) + 1),
        size := s.size + 1, capacity := s.capacity } x ↔
      (memP hb keyOf s x ∨ x = keyOf e)) := by
  obtain ⟨hn, hfiL, hoccF, hwidth2, hpoints2, hreg2, hinj2⟩ := hH
  set k := keyOf e with hk
  set bi := bucketOf hash s.capacity k with hbi
  set t0 := fi - bi + 1 with ht0
  have ht0b : 1 ≤ t0 ∧ t0 ≤ hb := by omega
  have hbiL : bi < s.capacity := bucketOf_lt hash hn k
  have hslotF : bi + t0 - 1 = fi := by omega
  -- the first |= 1 leaves the word unchanged (occupancy already set)
  have hA : orBit hb hops2 fi 0 = hops2 := by
    unfold orBit
    rw [wset_eq_of_lt (or_two_pow_lt (hwidth2 fi hfiL) (by omega)),
      or_two_pow_eq_self ((mod_two_eq_one_iff_testBit _).mp hoccF),
      Function.update_eq_self]
  set wb := hops2 bi with hwb
  have hwbLt : wb < 2 ^ (hb + 1) := hwidth2 bi (by omega)
  have hB : orBit hb (orBit hb hops2 fi 0) bi t0
      = Function.update hops2 bi (wb ||| 2 ^ t0) := by
    rw [hA]
    unfold orBit
    rw [wset_eq_of_lt (or_two_pow_lt hwbLt (by omega))]
  set hops' := Function.update hops2 bi (wb ||| 2 ^ t0) with hhops'
  set ent' := Function.update ent2 fi e with hent'
  rw [hB]
  have hBitNew : wb.testBit t0 = false := by
    rcases Bool.eq_false_or_eq_true (wb.testBit t0) with ht | hf
    · have h1 := hpoints2 bi (by omega) t0 (by omega) (by omega) ht
      rw [hslotF] at h1
      exact absurd rfl h1.1
    · exact hf
  have hhopsAt : ∀ i, i ≠ bi → hops' i = hops2 i := by
    intro i hi
    rw [hhops', Function.update_noteq hi]
  have hhopsBi : hops' bi = wb ||| 2 ^ t0 := by
    rw [hhops', Function.update_same]
  have hentAt : ∀ i, i ≠ fi → ent' i = ent2 i := by
    intro i hi
    rw [hent', Function.update_noteq hi]
  have hentFi : ent' fi = e := by
    rw [hent', Function.update_same]
  have hparF : ∀ i, hops' i % 2 = hops2 i % 2 := by
    intro i
    by_cases hi : i = bi
    · subst hi
      rw [hhopsBi, parity_or_two_pow (by omega)]
    · rw [hhopsAt i hi]
  have hbitsF : ∀ b t, 1 ≤ t → ¬ (b = bi ∧ t = t0) →
      (hops' b).testBit t = (hops2 b).testBit t := by
    intro b t _ hno
    by_cases hbb : b = bi
    · subst hbb
      rw [hhopsBi, testBit_or_two_pow]
      have : ¬ (t = t0) := fun ht => hno ⟨rfl, ht⟩
      simp [this]
    · rw [hhopsAt b hbb]
  have hbitNew' : (hops' bi).testBit t0 = true := by
    rw [hhopsBi, testBit_or_two_pow]
    simp
  have hkeq : bucketOf hash s.capacity (keyOf (ent' fi)) = bi := by
    rw [hentFi, ← hk, ← hbi]
  -- `fi` is occupied
  have hoccF' : hops' fi % 2 = 1 := by
    rw [hparF fi]
    exact hoccF
  have hmarkIdx : (orBit hb s.hops idx 0) idx % 2 = 1 := by
    unfold orBit
    rw [Function.update_same, wset_mod_two]
    exact parity_or_one _
  have hmarkAt : ∀ i, i ≠ idx → (orBit hb s.hops idx 0) i % 2 = s.hops i % 2 := by
    intro i hi
    unfold orBit
    rw [Function.update_noteq hi]
  have hwfS : WF hb hash keyOf
      { entries := ent', hops := hops', size := s.size + 1,
        capacity := s.capacity } := by
    refine ⟨hn, ?_, ?_, ?_, ?_, ?_⟩
    · -- width
      intro i hiL
      by_cases hi : i = bi
      · subst hi
        show hops' bi < 2 ^ (hb + 1)
        rw [hhopsBi]
        exact or_two_pow_lt hwbLt (by omega)
      · show hops' i < 2 ^ (hb + 1)
        rw [hhopsAt i hi]
        exact hwidth2 i hiL
    · -- points
      dsimp only
      intro b hbL t htL ht1 hbit
      by_cases hno : b = bi ∧ t = t0
      · obtain ⟨hb1, ht1'⟩ := hno
        subst hb1
        subst ht1'
        rw [hslotF]
        exact ⟨hoccF', hkeq⟩
      · rw [hbitsF b t ht1 hno] at hbit
        have hp := hpoints2 b hbL t htL ht1 hbit
        refine ⟨by rw [hparF]; exact hp.2.1, ?_⟩
        rw [hentAt _ hp.1, hp.2.2]
    · -- registration
      intro j hjL hocc
      show ∃ t < hb + 1, 1 ≤ t ∧
        bucketOf hash s.capacity (keyOf (ent' j)) + t - 1 = j ∧
        (hops' (bucketOf hash s.capacity (keyOf (ent' j)))).testBit t = true
      by_cases hj : j = fi
      · subst hj
        exact ⟨t0, by omega, by omega, by rw [hkeq]; omega,
          by rw [hkeq]; exact hbitNew'⟩
      · have hocc2 : hops2 j % 2 = 1 := by
          rw [← hparF j]; exact hocc
        obtain ⟨t, htL, ht1, hslot, hbit⟩ := hreg2 j hjL hocc2 hj
        rw [hentAt j hj]
        refine ⟨t, htL, ht1, hslot, ?_⟩
        by_cases hhome : bucketOf hash s.capacity (keyOf (ent2 j)) = bi
        · rw [hhome] at hbit ⊢
          rw [hhopsBi, testBit_or_two_pow, hbit]
          simp
        · rw [hhopsAt _ hhome]
          exact hbit
    · -- injectivity
      dsimp only
      intro i hiL j hjL hocci hoccj hkey
      have hocci2 : hops2 i % 2 = 1 := by rw [← hparF i]; exact hocci
      have hoccj2 : hops2 j % 2 = 1 := by rw [← hparF j]; exact hoccj
      by_cases hi : i = fi <;> by_cases hj : j = fi
      · rw [hi, hj]
      · exfalso
        rw [hi, hentFi] at hkey
        rw [hentAt j hj] at hkey
        have hjreg := hreg2 j hjL hoccj2 hj
        obtain ⟨t, htL, ht1, hslot, hbit⟩ := hjreg
        apply hnm
        rw [← hmem2 k]
        refine ⟨bucketOf hash s.capacity (keyOf (ent2 j)), ?_, t, htL, ht1,
          hbit, ?_⟩
        · have := bucketOf_lt hash hn (keyOf (ent2 j))
          omega
        · rw [hslot, ← hkey]
      · exfalso
        rw [hj, hentFi] at hkey
        rw [hentAt i hi] at hkey
        have hireg := hreg2 i hiL hocci2 hi
        obtain ⟨t, htL, ht1, hslot, hbit⟩ := hireg
        apply hnm
        rw [← hmem2 k]
        refine ⟨bucketOf hash s.capacity (keyOf (ent2 i)), ?_, t, htL, ht1,
          hbit, ?_⟩
        · have := bucketOf_lt hash hn (keyOf (ent2 i))
          omega
        · rw [hslot, hkey]
      · rw [hentAt i hi, hentAt j hj] at hkey
        exact hinj2 i hiL j hjL hi hj hocci2 hoccj2 hkey
    · -- size
      show s.size + 1 = countOcc hb _
      have hs1 : s.size = countOcc hb s := hwf.2.2.2.2.2
      have hflip : countOcc hb
          { entries := ent', hops := hops', size := s.size + 1,
            capacity := s.capacity } = countOcc hb s + 1 := by
        apply @countOcc_succ_of_flip E hb s
          { entries := ent', hops := hops', size := s.size + 1,
            capacity := s.capacity } idx rfl hidxL heven
        · show hops' idx % 2 = 1
          rw [hparF idx, hpar idx]
          exact hmarkIdx
        · intro i _ hi
          show hops' i % 2 = s.hops i % 2
          rw [hparF i, hpar i, hmarkAt i hi]
      rw [hflip, hs1]
  refine ⟨hwfS, ?_⟩
  intro x
  have hrfs := memRf_iff_memP hwfS x
  have hsplit : memRf hb hash keyOf s.capacity ent' hops' x ↔
      (memRf hb hash keyOf s.capacity ent2 hops2 x ∨ x = k) := by
    constructor
    · rintro ⟨b, hbL, t, htL, ht1, hbit, hkey⟩
      by_cases hno : b = bi ∧ t = t0
      · obtain ⟨hb1, ht1'⟩ := hno
        subst hb1
        subst ht1'
        rw [hslotF, hentFi] at hkey
        exact Or.inr hkey.symm
      · rw [hbitsF b t ht1 hno] at hbit
        have hp := hpoints2 b hbL t htL ht1 hbit
        rw [hentAt _ hp.1] at hkey
        exact Or.inl ⟨b, hbL, t, htL, ht1, hbit, hkey⟩
    · rintro (⟨b, hbL, t, htL, ht1, hbit, hkey⟩ | hxk)
      · have hp := hpoints2 b hbL t htL ht1 hbit
        refine ⟨b, hbL, t, htL, ht1, ?_, ?_⟩
        · by_cases hbb : b = bi
          · subst hbb
            rw [hhopsBi, testBit_or_two_pow, hbit]
            simp
          · rw [hhopsAt b hbb]
            exact hbit
        · rw [hentAt _ hp.1]
          exact hkey
      · subst hxk
        exact ⟨bi, by omega, t0, by omega, by omega, hbitNew',
          by rw [hslotF, hentFi]⟩
  rw [show memP hb keyOf
      { entries := ent', hops := hops', size := s.size + 1,
        capacity := s.capacity } x ↔
      memRf hb hash keyOf s.capacity ent' hops' x from hrfs.symm]
  rw [hsplit]
  constructor
  · rintro (hm | hxk)
    · exact Or.inl ((hmem2 x).mp hm)
    · exact Or.inr hxk
  · rintro (hm | hxk)
    · exact Or.inl ((hmem2 x).mpr hm)
    · exact Or.inr hxk

theorem insert_retry (hb : Nat) (hash : K → Nat) (keyOf : E → K) (dflt : E)
    (hhb : 1 ≤ hb) (ins : HopS E → E → Option (Bool × Nat × HopS E))
    (hins : ∀ s e r, WF hb hash keyOf s → ins s e = some r →
      InsertOut hb hash keyOf s e r)
    (s : HopS E) (e : E) (r : Bool × Nat × HopS E)
    (hwf : WF hb hash keyOf s) (hnm : ¬ memP hb keyOf s (keyOf e))
    (heq : (expandF hb dflt ins s).bind (fun s2 => ins s2 e) = some r) :
    InsertOut hb hash keyOf s e r := by
  rcases Option.bind_eq_some.mp heq with ⟨s2, hx1, hx2⟩
  have hexp := expandF_spec hb hash keyOf dflt hhb ins s s2 hins hwf hx1
  obtain ⟨hwf2, hmem2, m, hcap2, hm1⟩ := hexp
  have hout := hins s2 e r hwf2 hx2
  obtain ⟨hwfR, hmemR, hfalseR, hsameR, m2, hcapR⟩ := hout
  refine ⟨hwfR, ?_, ?_, ?_, ⟨m2 + m, ?_⟩⟩
  · intro x
    rw [hmemR x, hmem2 x]
  · rw [hfalseR, hmem2 (keyOf e)]
  · intro hf
    exact absurd ((hmem2 (keyOf e)).mp (hfalseR.mp hf)) hnm
  · rw [hcapR, hcap2, pow_add]
    ring

theorem insertF_spec (hb : Nat) (hash : K → Nat) (keyOf : E → K) (dflt : E)
    (hhb : 1 ≤ hb) :
    ∀ fuel s e r, WF hb hash keyOf s →
      insertF hb hash keyOf dflt fuel s e = some r →
      InsertOut hb hash keyOf s e r := by
  intro fuel
  induction fuel with
  | zero =>
    intro s e r _ heq
    cases heq
  | succ fuel ih =>
    intro s e r hwf heq
    have hstep : insertF hb hash keyOf dflt (fuel + 1) s e
        = insertStep hb hash keyOf dflt (insertF hb hash keyOf dflt fuel) s e :=
      rfl
    rw [hstep] at heq
    set k := keyOf e with hk
    set bi := bucketOf hash s.capacity k with hbi
    set pe := min (bi + probeMax hb) (s.capacity + hb) with hpe
    set idx := probeLoop s.hops pe bi pe with hidx
    rw [insertStep_eq hb hash keyOf dflt _ s e bi pe idx hbi hpe hidx] at heq
    have hfieq : findIndex hb hash keyOf s k = findInternal hb keyOf s bi k := by
      show findInternal hb keyOf s (bucketOf hash s.capacity k) k
        = findInternal hb keyOf s bi k
      rw [hbi]
    have hfc := findInternal_correct hb hash keyOf s k hhb hwf
    by_cases hfound : findInternal hb keyOf s bi k ≠ s.capacity + hb
    · rw [if_pos hfound] at heq
      cases heq
      rcases hfc with ⟨hseq, _⟩ | ⟨_, _, _, _, _, hm⟩
      · rw [hfieq] at hseq
        exact absurd hseq hfound
      · refine ⟨hwf, ?_, ?_, ?_, ⟨0, by simp⟩⟩
        · intro x
          simp
        · simpa using hm
        · intro _
          exact ⟨rfl, hfieq.symm⟩
    · rw [if_neg hfound] at heq
      push_neg at hfound
      have hnm : ¬ memP hb keyOf s k := by
        rcases hfc with ⟨_, hnm⟩ | ⟨hlt, _, _, _, _, _⟩
        · exact hnm
        · rw [hfieq, hfound] at hlt
          omega
      have hbiLt : bi < s.capacity := by
        rw [hbi]
        exact bucketOf_lt hash hwf.1 k
      have hpeLe : pe ≤ s.capacity + hb := by
        rw [hpe]
        exact min_le_right _ _
      have hbipe : bi ≤ pe := by
        rw [hpe]
        exact le_min (by omega) (by omega)
      have hps := probeLoop_spec s.hops pe bi pe (by omega) hbipe
      rw [← hidx] at hps
      by_cases hprobe : idx = pe
      · rw [if_pos hprobe] at heq
        exact insert_retry hb hash keyOf dflt hhb _
          (fun s' e' r' hwf' heq' => ih s' e' r' hwf' heq') s e r hwf hnm heq
      · rw [if_neg hprobe] at heq
        have hidxpe : idx < pe := by omega
        have hnocc := hps.2.2 hidxpe
        have heven : s.hops idx % 2 = 0 := by
          rcases Nat.mod_two_eq_zero_or_one (s.hops idx) with h | h
          · exact h
          · exact absurd h hnocc
        have hidxL : idx < s.capacity + hb := by omega
        have hmark := holeInv_mark hb hash keyOf s idx hhb hwf hidxL heven
        obtain ⟨hHI, hmarkAt, hmarkIdx, hmemM⟩ := hmark
        rcases hcz : cascadeLoop hb bi (idx + 1) s.entries
            (orBit hb s.hops idx 0) idx with _ | ⟨⟨fi, ent2, hops2⟩⟩
        · rw [hcz] at heq
          have hrevert : { s with
              hops := xorBit hb (orBit hb s.hops idx 0) idx 0 } = s := by
            have hw : s.hops idx < 2 ^ (hb + 1) := hwf.2.1 idx hidxL
            unfold xorBit orBit
            rw [Function.update_same, Function.update_idem,
              wset_eq_of_lt (or_two_pow_lt hw (by omega))]
            rw [wset_eq_of_lt (xor_two_pow_lt (or_two_pow_lt hw (by omega))
              (by omega))]
            have hxw : (s.hops idx ||| 2 ^ 0) ^^^ 2 ^ 0 = s.hops idx := by
              apply Nat.eq_of_testBit_eq
              intro u
              rw [testBit_xor_two_pow, testBit_or_two_pow]
              by_cases hu : u = 0
              · subst hu
                simp [(testBit_zero_false_iff _).mpr heven]
              · simp [hu]
            rw [hxw, Function.update_eq_self]
          rw [hrevert] at heq
          exact insert_retry hb hash keyOf dflt hhb _
            (fun s' e' r' hwf' heq' => ih s' e' r' hwf' heq') s e r hwf hnm heq
        · rw [hcz] at heq
          cases heq
          have hcs := cascadeLoop_spec hb hash keyOf s.capacity bi hhb (idx + 1)
            s.entries (orBit hb s.hops idx 0) idx fi ent2 hops2 (by omega)
            hps.1 hHI hcz
          obtain ⟨hH2, hbif, hfiw, hpar2, hmemC⟩ := hcs
          have hmem2 : ∀ x, memRf hb hash keyOf s.capacity ent2 hops2 x ↔
              memP hb keyOf s x :=
            fun x => (hmemC x).trans (hmemM x)
          have hfin := insert_finalize hb hash keyOf s e idx fi ent2 hops2 hhb
            hwf hH2 hbif hfiw hpar2 hidxL heven hmem2 hnm
          obtain ⟨hwfS, hmemS⟩ := hfin
          refine ⟨hwfS, ?_, ?_, ?_, ⟨0, by simp⟩⟩
          · intro x
            have hiff : (memP hb keyOf s x ∨ x = k) ↔
                (memP hb keyOf s x ∨ ((true : Bool) = true ∧ x = k)) := by
              constructor
              · rintro (hm | hxk)
                · exact Or.inl hm
                · exact Or.inr ⟨rfl, hxk⟩
              · rintro (hm | ⟨_, hxk⟩)
                · exact Or.inl hm
                · exact Or.inr hxk
            exact (hmemS x).trans hiff
          · exact iff_of_false (by simp) hnm
          · intro hf
            exact absurd hf (by simp)

end InsertLemmas

section EraseLemmas

variable {E K : Type} [DecidableEq K]

theorem eraseK_eq (hb : Nat) (hash : K → Nat) (keyOf : E → K) (s : HopS E)
    (k : K) (bi index : Nat)
    (hbi : bi = bucketOf hash s.capacity k)
    (hind : index = findInternal hb keyOf s bi k) :
    eraseK hb hash keyOf s k =
      (if index ≠ s.capacity + hb then
        (true, { s with
          hops := xorBit hb (xorBit hb s.hops bi (index - bi + 1)) index 0,
          size := s.size - 1 })
      else (false, s)) := by
  subst hbi
  subst hind
  rfl

theorem eraseK_spec (hb : Nat) (hash : K → Nat) (keyOf : E → K)
    (s : HopS E) (k : K) (hhb : 1 ≤ hb) (hwf : WF hb hash keyOf s) :
    (¬ memP hb keyOf s k ∧ eraseK hb hash keyOf s k = (false, s)) ∨
    (memP hb keyOf s k ∧ (eraseK hb hash keyOf s k).1 = true ∧
      WF hb hash keyOf (eraseK hb hash keyOf s k).2 ∧
      (∀ x, memP hb keyOf (eraseK hb hash keyOf s k).2 x ↔
        (memP hb keyOf s x ∧ x ≠ k)) ∧
      (eraseK hb hash keyOf s k).2.entries = s.entries ∧
      (eraseK hb hash keyOf s k).2.capacity = s.capacity ∧
      (eraseK hb hash keyOf s k).2.size = s.size - 1 ∧
      (∀ i t, ¬ (i = bucketOf hash s.capacity k ∧
          t = findIndex hb hash keyOf s k - bucketOf hash s.capacity k + 1) →
        ¬ (i = findIndex hb hash keyOf s k ∧ t = 0) →
        ((eraseK hb hash keyOf s k).2.hops i).testBit t
          = (s.hops i).testBit t)) := by
  set bi := bucketOf hash s.capacity k with hbi
  set j := findIndex hb hash keyOf s k with hj
  have hjint : j = findInternal hb keyOf s bi k := by
    rw [hj]
    show findInternal hb keyOf s (bucketOf hash s.capacity k) k
      = findInternal hb keyOf s bi k
    rw [hbi]
  rw [eraseK_eq hb hash keyOf s k bi j hbi hjint]
  rcases findInternal_correct hb hash keyOf s k hhb hwf
    with ⟨hseq, hnm⟩ | ⟨hlt, hocc, hkey, hge, hle, hm⟩
  · left
    rw [← hj] at hseq
    rw [if_neg (by omega)]
    exact ⟨hnm, rfl⟩
  · right
    rw [← hj] at hlt hocc hkey hge hle
    rw [if_pos (by omega)]
    obtain ⟨hcap, hwidth, hpoints, hreg, hinj, hsize⟩ := hwf
    set t0 := j - bi + 1 with ht0
    have hbiLt : bi < s.capacity := by
      rw [hbi]
      exact bucketOf_lt hash hcap k
    have ht0b : 1 ≤ t0 ∧ t0 ≤ hb := by omega
    have hjL : j < s.capacity + hb := hlt
    -- the home word holds the (unique) bit pointing at `j`
    have hbitT0 : (s.hops bi).testBit t0 = true := by
      obtain ⟨t, htL, ht1, hslot, hbit⟩ := hreg j hjL hocc
      rw [hkey, ← hbi] at hslot hbit
      have : t = t0 := by omega
      rw [← this]
      exact hbit
    have huniq : ∀ b t, b < s.capacity + hb → t < hb + 1 → 1 ≤ t →
        (s.hops b).testBit t = true → b + t - 1 = j → b = bi ∧ t = t0 := by
      intro b t hbL htL ht1 hbit hslot
      have hp := hpoints b hbL t htL ht1 hbit
      rw [hslot, hkey, ← hbi] at hp
      have hbb : b = bi := hp.2.symm
      subst hbb
      exact ⟨rfl, by omega⟩
    set wbi := s.hops bi with hwbi
    set wj := s.hops j with hwj
    have hwbiLt : wbi < 2 ^ (hb + 1) := hwidth bi (by omega)
    have hwjLt : wj < 2 ^ (hb + 1) := hwidth j hjL
    set hops' := xorBit hb (xorBit hb s.hops bi t0) j 0 with hhops'
    -- bit-level characterization of the update
    have hbits : ∀ i t, (hops' i).testBit t
        = (((s.hops i).testBit t).xor (decide (i = bi ∧ t = t0))).xor
            (decide (i = j ∧ t = 0)) := by
      intro i t
      by_cases hbj : bi = j
      · have hA : xorBit hb s.hops bi t0
            = Function.update s.hops bi (wbi ^^^ 2 ^ t0) := by
          unfold xorBit
          rw [wset_eq_of_lt (xor_two_pow_lt hwbiLt (by omega))]
        have hB : hops' = Function.update s.hops bi
            ((wbi ^^^ 2 ^ t0) ^^^ 2 ^ 0) := by
          rw [hhops', hA]
          unfold xorBit
          rw [← hbj, Function.update_same, Function.update_idem]
          rw [wset_eq_of_lt (xor_two_pow_lt
            (xor_two_pow_lt hwbiLt (by omega)) (by omega))]
        rw [hB]
        by_cases hib : i = bi
        · rw [hib, Function.update_same, testBit_xor_two_pow,
            testBit_xor_two_pow, ← hbj]
          simp [hwbi]
        · rw [Function.update_noteq hib]
          have hij : ¬ (i = j) := by rw [← hbj]; exact hib
          simp [hib, hij]
      · have hA : xorBit hb s.hops bi t0
            = Function.update s.hops bi (wbi ^^^ 2 ^ t0) := by
          unfold xorBit
          rw [wset_eq_of_lt (xor_two_pow_lt hwbiLt (by omega))]
        have hB : hops' = Function.update
            (Function.update s.hops bi (wbi ^^^ 2 ^ t0)) j (wj ^^^ 2 ^ 0) := by
          rw [hhops', hA]
          unfold xorBit
          rw [Function.update_noteq (by omega : j ≠ bi)]
          rw [wset_eq_of_lt (xor_two_pow_lt hwjLt (by omega))]
        rw [hB]
        by_cases hij : i = j
        · have hjb : ¬ (j = bi) := fun h => hbj h.symm
          rw [hij, Function.update_same, testBit_xor_two_pow]
          simp [hjb, hwj]
        · rw [Function.update_noteq hij]
          by_cases hib : i = bi
          · rw [hib, Function.update_same, testBit_xor_two_pow]
            simp [hbj, hwbi]
          · rw [Function.update_noteq hib]
            simp [hib, hij]
    have hwidth' : ∀ i, i < s.capacity + hb → hops' i < 2 ^ (hb + 1) := by
      intro i hiL
      apply Nat.lt_pow_two_of_testBit
      intro u hu
      rw [hbits i u]
      have h1 : ¬ (i = bi ∧ u = t0) := by
        rintro ⟨_, he⟩
        omega
      have h2 : ¬ (i = j ∧ u = 0) := by
        rintro ⟨_, he⟩
        omega
      simp [h1, h2, testBit_high_of_lt (hwidth i hiL) hu]
    have hparAt : ∀ i, i ≠ j → hops' i % 2 = s.hops i % 2 := by
      intro i hij
      apply mod_two_eq_of_testBit_zero
      rw [hbits i 0]
      simp [show ¬ (0 = t0) by omega, hij]
    have hparJ : hops' j % 2 = 0 := by
      rw [← testBit_zero_false_iff]
      rw [hbits j 0]
      have hocc0 : (s.hops j).testBit 0 = true :=
        (mod_two_eq_one_iff_testBit _).mp hocc
      simp [hocc0, show ¬ (0 = t0) by omega]
    have hoccAt : ∀ i, i ≠ j → (hops' i % 2 = 1 ↔ s.hops i % 2 = 1) := by
      intro i hij
      rw [hparAt i hij]
    refine ⟨hm, rfl, ⟨hcap, hwidth', ?_, ?_, ?_, ?_⟩, ?_, rfl, rfl, rfl, ?_⟩
    · -- points
      intro b hbL t htL ht1 hbit
      rw [hbits b t] at hbit
      have hnotj : ¬ (b = j ∧ t = 0) := by omega
      by_cases hbt : b = bi ∧ t = t0
      · rw [decide_eq_true_iff.mpr hbt] at hbit
        simp [hnotj] at hbit
        obtain ⟨hb1, ht1'⟩ := hbt
        subst hb1
        subst ht1'
        rw [hbitT0] at hbit
        exact absurd hbit (by simp)
      · simp [hbt, hnotj] at hbit
        have hp := hpoints b hbL t htL ht1 hbit
        have hslotj : b + t - 1 ≠ j := by
          intro he
          exact hbt (huniq b t hbL htL ht1 hbit he)
        refine ⟨?_, hp.2⟩
        rw [hparAt _ hslotj]
        exact hp.1
    · -- registration
      intro j' hj'L hocc'
      have hj'j : j' ≠ j := by
        intro he
        rw [he, hparJ] at hocc'
        omega
      rw [hparAt j' hj'j] at hocc'
      obtain ⟨t, htL, ht1, hslot, hbit⟩ := hreg j' hj'L hocc'
      refine ⟨t, htL, ht1, hslot, ?_⟩
      rw [hbits _ t]
      have hne1 : ¬ (bucketOf hash s.capacity (keyOf (s.entries j')) = bi
          ∧ t = t0) := by
        rintro ⟨he1, he2⟩
        rw [he1, he2] at hslot
        exact hj'j (by omega)
      have hne2 : ¬ (bucketOf hash s.capacity (keyOf (s.entries j')) = j
          ∧ t = 0) := by
        rintro ⟨_, he⟩
        omega
      simp [hne1, hne2, hbit]
    · -- injectivity
      intro i hiL j2 hj2L hocci hoccj hkey2
      have hij : i ≠ j := by
        intro he
        rw [he, hparJ] at hocci
        omega
      have hjj : j2 ≠ j := by
        intro he
        rw [he, hparJ] at hoccj
        omega
      rw [hparAt i hij] at hocci
      rw [hparAt j2 hjj] at hoccj
      exact hinj i hiL j2 hj2L hocci hoccj hkey2
    · -- size
      show s.size - 1 = countOcc hb { s with hops := hops', size := s.size - 1 }
      have hclear : countOcc hb
          { s with hops := hops', size := s.size - 1 } + 1 = countOcc hb s := by
        apply @countOcc_add_one_of_clear E hb s
          { s with hops := hops', size := s.size - 1 } j rfl hjL hocc hparJ
        intro i _ hij
        exact hparAt i hij
      omega
    · -- membership
      intro x
      constructor
      · rintro ⟨j', hj'L, hocc', hkey'⟩
        have hj'j : j' ≠ j := by
          intro he
          rw [he] at hocc'
          show False
          have := hparJ
          simp only at hocc'
          omega
        rw [(hoccAt j' hj'j)] at hocc'
        refine ⟨⟨j', hj'L, hocc', hkey'⟩, ?_⟩
        intro hxk
        rw [hxk] at hkey'
        rw [← hkey] at hkey'
        exact hj'j (hinj j' hj'L j hjL hocc' hocc hkey')
      · rintro ⟨⟨j', hj'L, hocc', hkey'⟩, hxk⟩
        have hj'j : j' ≠ j := by
          intro he
          rw [he, hkey] at hkey'
          exact hxk hkey'.symm
        exact ⟨j', hj'L, (hoccAt j' hj'j).mpr hocc', hkey'⟩
    · -- frame: untouched bits
      intro i t hne1 hne2
      show (hops' i).testBit t = (s.hops i).testBit t
      rw [hbits i t]
      simp [hne1, hne2]

end EraseLemmas

section MembershipLemmas

variable {E K : Type} [DecidableEq K]

theorem hasK_true_iff (hb : Nat) (hash : K → Nat) (keyOf : E → K) (s : HopS E)
    (k : K) (hhb : 1 ≤ hb) (hwf : WF hb hash keyOf s) :
    hasK hb hash keyOf s k = true ↔ memP hb keyOf s k := by
  rw [hasK_iff]
  rcases findInternal_correct hb hash keyOf s k hhb hwf with ⟨h1, h2⟩ |
    ⟨h1, _, _, _, _, h6⟩
  · exact ⟨fun hne => absurd h1 hne, fun hm => absurd hm h2⟩
  · exact ⟨fun _ => h6, fun _ => by omega⟩

theorem hasK_eq_decide (hb : Nat) (hash : K → Nat) (keyOf : E → K)
    (s : HopS E) (k : K) (hhb : 1 ≤ hb) (hwf : WF hb hash keyOf s) :
    hasK hb hash keyOf s k = decide (memP hb keyOf s k) := by
  by_cases hm : memP hb keyOf s k
  · rw [decide_eq_true hm]
    exact (hasK_true_iff hb hash keyOf s k hhb hwf).mpr hm
  · rw [decide_eq_false hm]
    rw [← Bool.not_eq_true]
    intro h
    exact hm ((hasK_true_iff hb hash keyOf s k hhb hwf).mp h)

theorem hasK_false_iff (hb : Nat) (hash : K → Nat) (keyOf : E → K)
    (s : HopS E) (k : K) (hhb : 1 ≤ hb) (hwf : WF hb hash keyOf s) :
    hasK hb hash keyOf s k = false ↔ ¬ memP hb keyOf s k := by
  rw [hasK_eq_decide hb hash keyOf s k hhb hwf]
  simp

theorem size_zero_iff (hb : Nat) (hash : K → Nat) (keyOf : E → K)
    (s : HopS E) (hwf : WF hb hash keyOf s) :
    s.size = 0 ↔ ¬ ∃ x, memP hb keyOf s x := by
  obtain ⟨-, -, -, -, -, hsize⟩ := hwf
  rw [hsize]
  unfold countOcc
  rw [Finset.card_eq_zero]
  constructor
  · rintro hempty ⟨x, j, hj, hocc, -⟩
    have hjmem : j ∈ (Finset.range (s.capacity + hb)).filter
        fun i => s.hops i % 2 = 1 :=
      Finset.mem_filter.mpr ⟨Finset.mem_range.mpr hj, hocc⟩
    rw [hempty] at hjmem
    exact absurd hjmem (Finset.not_mem_empty j)
  · intro hno
    rw [Finset.filter_eq_empty_iff]
    intro j hj hocc
    exact hno ⟨keyOf (s.entries j), j, Finset.mem_range.mp hj, hocc, rfl⟩

theorem mem_slotKeys (hb : Nat) (keyOf : E → K) (s : HopS E) (x : K) :
    x ∈ slotKeys hb keyOf s ↔ memP hb keyOf s x := by
  unfold slotKeys slotEntries
  rw [List.map_map, List.mem_map]
  constructor
  · rintro ⟨i, hmem, hk⟩
    rw [List.mem_filter, List.mem_range] at hmem
    exact ⟨i, hmem.1, of_decide_eq_true hmem.2, hk⟩
  · rintro ⟨i, hiL, hocc, hk⟩
    refine ⟨i, ?_, hk⟩
    rw [List.mem_filter, List.mem_range]
    exact ⟨hiL, decide_eq_true hocc⟩

theorem exists_slotEntries_key (hb : Nat) (keyOf : E → K) (s : HopS E)
    (x : K) :
    (∃ e ∈ slotEntries hb s, keyOf e = x) ↔ memP hb keyOf s x := by
  rw [← mem_slotKeys hb keyOf s x]
  unfold slotKeys
  rw [List.mem_map]

theorem slotKeys_nodup (hb : Nat) (hash : K → Nat) (keyOf : E → K)
    (s : HopS E) (hwf : WF hb hash keyOf s) :
    (slotKeys hb keyOf s).Nodup := by
  obtain ⟨-, -, -, -, hinj, -⟩ := hwf
  unfold slotKeys slotEntries
  rw [List.map_map]
  apply List.Nodup.map_on
  · intro i hi j hj hke
    rw [List.mem_filter, List.mem_range] at hi hj
    exact hinj i hi.1 j hj.1 (of_decide_eq_true hi.2)
      (of_decide_eq_true hj.2) hke
  · exact List.Nodup.filter _ (List.nodup_range _)

theorem modelMem_congr (keyOf : E → K) :
    ∀ (ops : List (E ⊕ K)) (m m' : K → Bool), (∀ y, m y = m' y) →
      ∀ x, modelMem keyOf ops m x = modelMem keyOf ops m' x := by
  intro ops
  induction ops with
  | nil => intro m m' h x; exact h x
  | cons op rest ih =>
    intro m m' h x
    cases op with
    | inl e =>
      show modelMem keyOf rest _ x = modelMem keyOf rest _ x
      exact ih _ _ (fun y => by rw [h y]) x
    | inr k =>
      show modelMem keyOf rest _ x = modelMem keyOf rest _ x
      exact ih _ _ (fun y => by rw [h y]) x

end MembershipLemmas

section AlgebraLemmas

variable {E K : Type} [DecidableEq K]

theorem interFold_spec (hb : Nat) (hash : K → Nat) (keyOf : E → K)
    (b : HopS E) (hhb : 1 ≤ hb) :
    ∀ (l : List Nat) (st : HopS E), WF hb hash keyOf st →
      (∀ i ∈ l, i < st.capacity + hb) →
      (∀ i < st.capacity + hb, st.hops i % 2 = 1 →
        hasK hb hash keyOf b (keyOf (st.entries i)) = false → i ∈ l) →
      WF hb hash keyOf (interFold hb hash keyOf b l st) ∧
      (interFold hb hash keyOf b l st).capacity = st.capacity ∧
      (∀ x, memP hb keyOf (interFold hb hash keyOf b l st) x →
        memP hb keyOf st x) ∧
      (∀ x, memP hb keyOf st x → hasK hb hash keyOf b x = true →
        memP hb keyOf (interFold hb hash keyOf b l st) x) ∧
      (∀ x, memP hb keyOf (interFold hb hash keyOf b l st) x →
        hasK hb hash keyOf b x = true) := by
  intro l
  induction l with
  | nil =>
    intro st hwf _ hcover
    rw [show interFold hb hash keyOf b [] st = st from rfl]
    refine ⟨hwf, rfl, fun x hx => hx, fun x hx _ => hx, ?_⟩
    rintro x ⟨j, hjL, hocc, hkey⟩
    by_contra hne
    rw [Bool.not_eq_true] at hne
    have hj : j ∈ ([] : List Nat) := hcover j hjL hocc (by rw [hkey]; exact hne)
    exact absurd hj (List.not_mem_nil j)
  | cons i rest ih =>
    intro st hwf hbound hcover
    by_cases hcond : st.hops i % 2 = 1 ∧
        hasK hb hash keyOf b (keyOf (st.entries i)) = false
    · have hstep : interFold hb hash keyOf b (i :: rest) st
          = interFold hb hash keyOf b rest
              (eraseK hb hash keyOf st (keyOf (st.entries i))).2 := by
        simp only [interFold]
        rw [if_pos hcond]
      rw [hstep]
      set ki := keyOf (st.entries i) with hki
      have hiL : i < st.capacity + hb := hbound i (List.mem_cons_self i rest)
      have hmem : memP hb keyOf st ki := ⟨i, hiL, hcond.1, rfl⟩
      rcases eraseK_spec hb hash keyOf st ki hhb hwf with ⟨hnm, -⟩ |
        ⟨-, -, hwf2, hmem2, hent2, hcap2, -, hframe⟩
      · exact absurd hmem hnm
      have hinj := hwf.2.2.2.2.1
      have hji : findIndex hb hash keyOf st ki = i := by
        rcases findInternal_correct hb hash keyOf st ki hhb hwf with ⟨-, hnm⟩ |
          ⟨hlt, hocc', hkey', -, -, -⟩
        · exact absurd hmem hnm
        · exact hinj _ hlt i hiL hocc' hcond.1 (by rw [hkey', hki])
      have hpar : ∀ i', i' ≠ i →
          (eraseK hb hash keyOf st ki).2.hops i' % 2 = st.hops i' % 2 := by
        intro i' hne
        apply mod_two_eq_of_testBit_zero
        apply hframe
        · rintro ⟨-, habs⟩
          omega
        · rintro ⟨habs, -⟩
          rw [hji] at habs
          exact hne habs
      have hclear : ¬ (eraseK hb hash keyOf st ki).2.hops i % 2 = 1 := by
        intro hodd
        have hmm : memP hb keyOf (eraseK hb hash keyOf st ki).2 ki := by
          refine ⟨i, ?_, hodd, ?_⟩
          · rw [hcap2]; exact hiL
          · rw [hent2, hki]
        exact ((hmem2 ki).mp hmm).2 rfl
      have hbound2 : ∀ i' ∈ rest,
          i' < (eraseK hb hash keyOf st ki).2.capacity + hb := by
        intro i' hi'
        rw [hcap2]
        exact hbound i' (List.mem_cons_of_mem i hi')
      have hcover2 : ∀ i' < (eraseK hb hash keyOf st ki).2.capacity + hb,
          (eraseK hb hash keyOf st ki).2.hops i' % 2 = 1 →
          hasK hb hash keyOf b
            (keyOf ((eraseK hb hash keyOf st ki).2.entries i')) = false →
          i' ∈ rest := by
        intro i' hi'L hocc' hbf
        by_cases hne : i' = i
        · rw [hne] at hocc'
          exact absurd hocc' hclear
        · rw [hpar i' hne] at hocc'
          rw [hent2] at hbf
          rw [hcap2] at hi'L
          rcases List.mem_cons.mp (hcover i' hi'L hocc' hbf) with he | hmem'
          · exact absurd he hne
          · exact hmem'
      obtain ⟨ihwf, ihcap, ih1, ih2, ih3⟩ :=
        ih (eraseK hb hash keyOf st ki).2 hwf2 hbound2 hcover2
      refine ⟨ihwf, by rw [ihcap, hcap2], ?_, ?_, ih3⟩
      · intro x hx
        exact ((hmem2 x).mp (ih1 x hx)).1
      · intro x hx hbx
        apply ih2 x _ hbx
        apply (hmem2 x).mpr
        refine ⟨hx, ?_⟩
        intro hxk
        rw [hxk, hcond.2] at hbx
        exact Bool.false_ne_true hbx
    · have hstep : interFold hb hash keyOf b (i :: rest) st
          = interFold hb hash keyOf b rest st := by
        simp only [interFold]
        rw [if_neg hcond]
      rw [hstep]
      have hbound2 : ∀ i' ∈ rest, i' < st.capacity + hb :=
        fun i' hi' => hbound i' (List.mem_cons_of_mem i hi')
      have hcover2 : ∀ i' < st.capacity + hb, st.hops i' % 2 = 1 →
          hasK hb hash keyOf b (keyOf (st.entries i')) = false →
          i' ∈ rest := by
        intro i' hi'L hocc hbf
        rcases List.mem_cons.mp (hcover i' hi'L hocc hbf) with he | hmem'
        · refine absurd ⟨?_, ?_⟩ hcond
          · rw [he] at hocc; exact hocc
          · rw [he] at hbf; exact hbf
        · exact hmem'
      exact ih st hwf hbound2 hcover2

theorem insFold_spec (hb : Nat) (hash : K → Nat) (keyOf : E → K) (dflt : E)
    (fuel : Nat) (hhb : 1 ≤ hb) :
    ∀ (l : List E) (st r : HopS E), WF hb hash keyOf st →
      insFold hb hash keyOf dflt fuel l st = some r →
      WF hb hash keyOf r ∧
      (∀ x, memP hb keyOf r x ↔
        (memP hb keyOf st x ∨ ∃ e ∈ l, keyOf e = x)) := by
  intro l
  induction l with
  | nil =>
    intro st r hwf heq
    replace heq : some st = some r := heq
    cases heq
    refine ⟨hwf, fun x => ?_⟩
    simp
  | cons e rest ih =>
    intro st r hwf heq
    replace heq : (insertF hb hash keyOf dflt fuel st e).bind
        (fun r1 => insFold hb hash keyOf dflt fuel rest r1.2.2) = some r := heq
    rcases h1 : insertF hb hash keyOf dflt fuel st e with _ | r1
    · rw [h1, Option.none_bind] at heq
      exact Option.noConfusion heq
    · rw [h1, Option.some_bind] at heq
      obtain ⟨hwf1, hmem1, hfiff, -, -⟩ :=
        insertF_spec hb hash keyOf dflt hhb fuel st e r1 hwf h1
      have hmem1' : ∀ x, memP hb keyOf r1.2.2 x ↔
          (memP hb keyOf st x ∨ x = keyOf e) := by
        intro x
        rw [hmem1 x]
        constructor
        · rintro (hx | ⟨-, hx⟩)
          · exact Or.inl hx
          · exact Or.inr hx
        · rintro (hx | hx)
          · exact Or.inl hx
          · rcases hr1 : r1.1 with _ | _
            · exact Or.inl (by rw [hx]; exact hfiff.mp hr1)
            · exact Or.inr ⟨rfl, hx⟩
      obtain ⟨hwfr, hmemr⟩ := ih r1.2.2 r hwf1 heq
      refine ⟨hwfr, fun x => ?_⟩
      rw [hmemr x, hmem1' x]
      constructor
      · rintro ((hx | hx) | ⟨e', he', hk⟩)
        · exact Or.inl hx
        · exact Or.inr ⟨e, List.mem_cons_self e rest, hx.symm⟩
        · exact Or.inr ⟨e', List.mem_cons_of_mem e he', hk⟩
      · rintro (hx | ⟨e', he', hk⟩)
        · exact Or.inl (Or.inl hx)
        · rcases List.mem_cons.mp he' with he | hmem'
          · exact Or.inl (Or.inr (by rw [← hk, he]))
          · exact Or.inr ⟨e', hmem', hk⟩

theorem diffFold_spec (hb : Nat) (hash : K → Nat) (keyOf : E → K)
    (hhb : 1 ≤ hb) :
    ∀ (l : List K) (st : HopS E), WF hb hash keyOf st →
      WF hb hash keyOf (diffFold hb hash keyOf l st) ∧
      (∀ x, memP hb keyOf (diffFold hb hash keyOf l st) x ↔
        (memP hb keyOf st x ∧ x ∉ l)) := by
  intro l
  induction l with
  | nil =>
    intro st hwf
    refine ⟨hwf, fun x => ?_⟩
    simp [diffFold]
  | cons k rest ih =>
    intro st hwf
    by_cases hk : hasK hb hash keyOf st k = true
    · have hstep : diffFold hb hash keyOf (k :: rest) st
          = diffFold hb hash keyOf rest (eraseK hb hash keyOf st k).2 := by
        simp only [diffFold]
        rw [if_pos hk]
      rw [hstep]
      have hmem : memP hb keyOf st k :=
        (hasK_true_iff hb hash keyOf st k hhb hwf).mp hk
      rcases eraseK_spec hb hash keyOf st k hhb hwf with ⟨hnm, -⟩ |
        ⟨-, -, hwf2, hmem2, -, -, -, -⟩
      · exact absurd hmem hnm
      obtain ⟨ihwf, ihmem⟩ := ih (eraseK hb hash keyOf st k).2 hwf2
      refine ⟨ihwf, fun x => ?_⟩
      rw [ihmem x, hmem2 x, List.mem_cons]
      constructor
      · rintro ⟨⟨hx, hne⟩, hnin⟩
        refine ⟨hx, ?_⟩
        rintro (h | h)
        · exact hne h
        · exact hnin h
      · rintro ⟨hx, hnin⟩
        exact ⟨⟨hx, fun h => hnin (Or.inl h)⟩, fun h => hnin (Or.inr h)⟩
    · have hstep : diffFold hb hash keyOf (k :: rest) st
          = diffFold hb hash keyOf rest st := by
        simp only [diffFold]
        rw [if_neg hk]
      rw [hstep]
      have hnm : ¬ memP hb keyOf st k := by
        rw [Bool.not_eq_true] at hk
        exact (hasK_false_iff hb hash keyOf st k hhb hwf).mp hk
      obtain ⟨ihwf, ihmem⟩ := ih st hwf
      refine ⟨ihwf, fun x => ?_⟩
      rw [ihmem x, List.mem_cons]
      constructor
      · rintro ⟨hx, hnin⟩
        refine ⟨hx, ?_⟩
        rintro (h | h)
        · rw [h] at hx; exact hnm hx
        · exact hnin h
      · rintro ⟨hx, hnin⟩
        exact ⟨hx, fun h => hnin (Or.inr h)⟩

theorem symmFold_spec (hb : Nat) (hash : K → Nat) (keyOf : E → K) (dflt : E)
    (fuel : Nat) (hhb : 1 ≤ hb) :
    ∀ (l : List E) (st r : HopS E), WF hb hash keyOf st →
      (l.map keyOf).Nodup →
      symmFold hb hash keyOf dflt fuel l st = some r →
      WF hb hash keyOf r ∧
      (∀ x, memP hb keyOf r x ↔
        ((memP hb keyOf st x ∧ x ∉ l.map keyOf) ∨
          (¬ memP hb keyOf st x ∧ x ∈ l.map keyOf))) := by
  intro l
  induction l with
  | nil =>
    intro st r hwf _ heq
    replace heq : some st = some r := heq
    cases heq
    refine ⟨hwf, fun x => ?_⟩
    simp
  | cons e rest ih =>
    intro st r hwf hnd heq
    rw [List.map_cons, List.nodup_cons] at hnd
    obtain ⟨hnotin, hnd'⟩ := hnd
    by_cases hk : hasK hb hash keyOf st (keyOf e) = true
    · have hstep : symmFold hb hash keyOf dflt fuel (e :: rest) st
          = symmFold hb hash keyOf dflt fuel rest
              (eraseK hb hash keyOf st (keyOf e)).2 := by
        simp only [symmFold]
        rw [if_pos hk]
      rw [hstep] at heq
      have hmem : memP hb keyOf st (keyOf e) :=
        (hasK_true_iff hb hash keyOf st (keyOf e) hhb hwf).mp hk
      rcases eraseK_spec hb hash keyOf st (keyOf e) hhb hwf with ⟨hnm, -⟩ |
        ⟨-, -, hwf2, hmem2, -, -, -, -⟩
      · exact absurd hmem hnm
      obtain ⟨hwfr, hmemr⟩ :=
        ih (eraseK hb hash keyOf st (keyOf e)).2 r hwf2 hnd' heq
      refine ⟨hwfr, fun x => ?_⟩
      rw [hmemr x, List.map_cons, List.mem_cons]
      by_cases hx : x = keyOf e
      · constructor
        · rintro (⟨h2, -⟩ | ⟨-, hin⟩)
          · rw [hx] at h2
            exact absurd rfl ((hmem2 (keyOf e)).mp h2).2
          · rw [hx] at hin
            exact absurd hin hnotin
        · rintro (⟨-, hnin⟩ | ⟨hno, -⟩)
          · exact absurd (Or.inl hx) hnin
          · rw [hx] at hno
            exact absurd hmem hno
      · have hm2 : memP hb keyOf (eraseK hb hash keyOf st (keyOf e)).2 x
            ↔ memP hb keyOf st x := by
          rw [hmem2 x]
          exact ⟨fun h => h.1, fun h => ⟨h, hx⟩⟩
        rw [hm2]
        constructor
        · rintro (⟨h2, hnin⟩ | ⟨hno, hin⟩)
          · refine Or.inl ⟨h2, ?_⟩
            rintro (h | h)
            · exact hx h
            · exact hnin h
          · exact Or.inr ⟨hno, Or.inr hin⟩
        · rintro (⟨h2, hnin⟩ | ⟨hno, hin⟩)
          · exact Or.inl ⟨h2, fun h => hnin (Or.inr h)⟩
          · rcases hin with h | h
            · exact absurd h hx
            · exact Or.inr ⟨hno, h⟩
    · have hstep : symmFold hb hash keyOf dflt fuel (e :: rest) st
          = (insertF hb hash keyOf dflt fuel st e).bind
              (fun r1 => symmFold hb hash keyOf dflt fuel rest r1.2.2) := by
        simp only [symmFold]
        rw [if_neg hk]
      rw [hstep] at heq
      have hnm : ¬ memP hb keyOf st (keyOf e) := by
        rw [Bool.not_eq_true] at hk
        exact (hasK_false_iff hb hash keyOf st (keyOf e) hhb hwf).mp hk
      rcases h1 : insertF hb hash keyOf dflt fuel st e with _ | r1
      · rw [h1, Option.none_bind] at heq
        exact Option.noConfusion heq
      · rw [h1, Option.some_bind] at heq
        obtain ⟨hwf1, hmem1, hfiff, -, -⟩ :=
          insertF_spec hb hash keyOf dflt hhb fuel st e r1 hwf h1
        have htrue : r1.1 = true := by
          rcases hr1 : r1.1 with _ | _
          · exact absurd (hfiff.mp hr1) hnm
          · rfl
        have hmem1' : ∀ x, memP hb keyOf r1.2.2 x ↔
            (memP hb keyOf st x ∨ x = keyOf e) := by
          intro x
          rw [hmem1 x, htrue]
          simp
        obtain ⟨hwfr, hmemr⟩ := ih r1.2.2 r hwf1 hnd' heq
        refine ⟨hwfr, fun x => ?_⟩
        rw [hmemr x, hmem1' x, List.map_cons, List.mem_cons]
        by_cases hx : x = keyOf e
        · constructor
          · intro _
            refine Or.inr ⟨?_, Or.inl hx⟩
            rw [hx]
            exact hnm
          · intro _
            refine Or.inl ⟨Or.inr hx, ?_⟩
            rw [hx]
            exact hnotin
        · constructor
          · rintro (⟨h2 | h2, hnin⟩ | ⟨hno, hin⟩)
            · refine Or.inl ⟨h2, ?_⟩
              rintro (h | h)
              · exact hx h
              · exact hnin h
            · exact absurd h2 hx
            · exact Or.inr ⟨fun hm => hno (Or.inl hm), Or.inr hin⟩
          · rintro (⟨hm, hnin⟩ | ⟨hno, hin⟩)
            · exact Or.inl ⟨Or.inl hm, fun h => hnin (Or.inr h)⟩
            · rcases hin with h | h
              · exact absurd h hx
              · refine Or.inr ⟨?_, h⟩
                rintro (hm | he)
                · exact hno hm
                · exact hx he

theorem scanAny_iff (hb : Nat) (hash : K → Nat) (keyOf : E → K)
    (x y : HopS E) (hhb : 1 ≤ hb) (hwfy : WF hb hash keyOf y) :
    scanAny hb hash keyOf x y = true ↔
      ∃ k, memP hb keyOf x k ∧ memP hb keyOf y k := by
  unfold scanAny
  rw [List.any_eq_true]
  constructor
  · rintro ⟨i, hi, hcond⟩
    rw [List.mem_range] at hi
    rw [Bool.and_eq_true] at hcond
    obtain ⟨hocc, hhk⟩ := hcond
    exact ⟨keyOf (x.entries i), ⟨i, hi, of_decide_eq_true hocc, rfl⟩,
      (hasK_true_iff hb hash keyOf y _ hhb hwfy).mp hhk⟩
  · rintro ⟨k, ⟨i, hiL, hocc, hkey⟩, hmy⟩
    refine ⟨i, List.mem_range.mpr hiL, ?_⟩
    rw [Bool.and_eq_true]
    refine ⟨decide_eq_true hocc, ?_⟩
    rw [hkey]
    exact (hasK_true_iff hb hash keyOf y k hhb hwfy).mpr hmy

theorem intersectsK_iff (hb : Nat) (hash : K → Nat) (keyOf : E → K)
    (a b : HopS E) (hhb : 1 ≤ hb) (hwfa : WF hb hash keyOf a)
    (hwfb : WF hb hash keyOf b) :
    intersectsK hb hash keyOf a b = true ↔
      ∃ k, memP hb keyOf a k ∧ memP hb keyOf b k := by
  unfold intersectsK
  by_cases hlt : a.size < b.size
  · rw [if_pos hlt]
    exact scanAny_iff hb hash keyOf a b hhb hwfb
  · rw [if_neg hlt]
    rw [scanAny_iff hb hash keyOf b a hhb hwfa]
    constructor
    · rintro ⟨k, h1, h2⟩; exact ⟨k, h2, h1⟩
    · rintro ⟨k, h1, h2⟩; exact ⟨k, h2, h1⟩

end AlgebraLemmas

section Npot32Lemmas

theorem smear_double {x s k m : Nat} (hm : m = 2 * k)
    (hs : ∀ u, s.testBit u = true ↔ ∃ d < k, x.testBit (u + d) = true) :
    ∀ u, (s ||| s >>> k).testBit u = true ↔
      ∃ d < m, x.testBit (u + d) = true := by
  subst hm
  intro u
  rw [Nat.testBit_or, Nat.testBit_shiftRight, Bool.or_eq_true, hs u, hs (k + u)]
  constructor
  · rintro (⟨d, hd, hbit⟩ | ⟨d, hd, hbit⟩)
    · exact ⟨d, by omega, hbit⟩
    · refine ⟨k + d, by omega, ?_⟩
      rw [show u + (k + d) = k + u + d by omega]
      exact hbit
  · rintro ⟨d, hd, hbit⟩
    by_cases hdk : d < k
    · exact Or.inl ⟨d, hdk, hbit⟩
    · refine Or.inr ⟨d - k, by omega, ?_⟩
      rw [show k + u + (d - k) = u + d by omega]
      exact hbit

theorem smear5_spec (x v2 v3 v4 v5 v6 : Nat)
    (h2 : v2 = x ||| x >>> 1) (h3 : v3 = v2 ||| v2 >>> 2)
    (h4 : v4 = v3 ||| v3 >>> 4) (h5 : v5 = v4 ||| v4 >>> 8)
    (h6 : v6 = v5 ||| v5 >>> 16)
    (hx1 : 1 ≤ x) (hx32 : x < 2 ^ 32) :
    v6 = 2 ^ (x.log2 + 1) - 1 := by
  have b1 : ∀ u, x.testBit u = true ↔ ∃ d < 1, x.testBit (u + d) = true := by
    intro u
    constructor
    · intro h
      exact ⟨0, by omega, by simpa using h⟩
    · rintro ⟨d, hd, h⟩
      have hd0 : d = 0 := by omega
      rw [hd0] at h
      simpa using h
  have b2 := smear_double (show (2:Nat) = 2 * 1 by norm_num) b1
  rw [← h2] at b2
  have b3 := smear_double (show (4:Nat) = 2 * 2 by norm_num) b2
  rw [← h3] at b3
  have b4 := smear_double (show (8:Nat) = 2 * 4 by norm_num) b3
  rw [← h4] at b4
  have b5 := smear_double (show (16:Nat) = 2 * 8 by norm_num) b4
  rw [← h5] at b5
  have b6 := smear_double (show (32:Nat) = 2 * 16 by norm_num) b5
  rw [← h6] at b6
  have hlog_le : 2 ^ x.log2 ≤ x := Nat.log2_self_le (by omega)
  have hlog_lt : x < 2 ^ (x.log2 + 1) := Nat.lt_log2_self
  have hbitL : x.testBit x.log2 = true := by
    have hdiv : x / 2 ^ x.log2 = 1 := by
      apply Nat.div_eq_of_lt_le
      · rw [one_mul]
        exact hlog_le
      · rw [show (1 + 1) * 2 ^ x.log2 = 2 ^ (x.log2 + 1) by
          rw [pow_succ]; ring]
        exact hlog_lt
    rw [Nat.testBit_to_div_mod, hdiv]
    rfl
  have hLlt : x.log2 < 32 := by
    by_contra hge
    push_neg at hge
    have hnn : 2 ^ 32 ≤ 2 ^ x.log2 := Nat.pow_le_pow_right (by omega) hge
    omega
  apply Nat.eq_of_testBit_eq
  intro u
  rw [Nat.testBit_two_pow_sub_one]
  rcases le_or_lt u x.log2 with hu | hu
  · rw [decide_eq_true (show u < x.log2 + 1 by omega)]
    rw [b6 u]
    refine ⟨x.log2 - u, by omega, ?_⟩
    rw [show u + (x.log2 - u) = x.log2 by omega]
    exact hbitL
  · rw [decide_eq_false (show ¬ u < x.log2 + 1 by omega)]
    rw [← Bool.not_eq_true, b6 u]
    rintro ⟨d, -, hbit⟩
    rw [testBit_high_of_lt hlog_lt (by omega)] at hbit
    exact Bool.false_ne_true hbit

theorem npot32_eq_smear (value : Nat) :
    npot32 value =
      ((let v1 := (value % 2 ^ 32 + (2 ^ 32 - 1)) % 2 ^ 32
        let v2 := v1 ||| v1 >>> 1
        let v3 := v2 ||| v2 >>> 2
        let v4 := v3 ||| v3 >>> 4
        let v5 := v4 ||| v4 >>> 8
        v5 ||| v5 >>> 16) + 1) % 2 ^ 32 := rfl

theorem npot32_is_pow (v : Nat) (hv1 : 1 ≤ v) (hv2 : v ≤ 2 ^ 31) :
    ∃ m, npot32 v = 2 ^ m := by
  rcases Nat.lt_or_ge v 2 with hv | hv
  · have hveq : v = 1 := by omega
    subst hveq
    exact ⟨0, by decide⟩
  · set x := v - 1 with hxdef
    have hx1 : 1 ≤ x := by omega
    have hx31 : x < 2 ^ 31 := by omega
    have hx32 : x < 2 ^ 32 := by omega
    have hv32 : v < 2 ^ 32 := by omega
    have hv1eq : (v % 2 ^ 32 + (2 ^ 32 - 1)) % 2 ^ 32 = x := by
      rw [Nat.mod_eq_of_lt hv32]
      rw [show v + (2 ^ 32 - 1) = x + 2 ^ 32 by omega]
      rw [Nat.add_mod_right]
      exact Nat.mod_eq_of_lt hx32
    have hnp0 := npot32_eq_smear v
    rw [hv1eq] at hnp0
    have hsm := smear5_spec x _ _ _ _ _ rfl rfl rfl rfl rfl hx1 hx32
    have hlet : (let v1 := x
        let v2 := v1 ||| v1 >>> 1
        let v3 := v2 ||| v2 >>> 2
        let v4 := v3 ||| v3 >>> 4
        let v5 := v4 ||| v4 >>> 8
        v5 ||| v5 >>> 16) = 2 ^ (x.log2 + 1) - 1 := hsm
    rw [hlet] at hnp0
    refine ⟨x.log2 + 1, ?_⟩
    rw [hnp0]
    have hLlt : x.log2 < 31 := by
      have hle : 2 ^ x.log2 ≤ x := Nat.log2_self_le (by omega)
      by_contra hge
      push_neg at hge
      have hnn : 2 ^ 31 ≤ 2 ^ x.log2 := Nat.pow_le_pow_right (by omega) hge
      omega
    have hpos : 0 < 2 ^ (x.log2 + 1) := Nat.two_pow_pos (x.log2 + 1)
    rw [show 2 ^ (x.log2 + 1) - 1 + 1 = 2 ^ (x.log2 + 1) by omega]
    apply Nat.mod_eq_of_lt
    have hle31 : 2 ^ (x.log2 + 1) ≤ 2 ^ 31 :=
      Nat.pow_le_pow_right (by omega) (by omega)
    omega

theorem npot32_zero : npot32 0 = 0 := by decide

end Npot32Lemmas

section LocateLemmas

variable {E K : Type} [DecidableEq K]

theorem find_range_least (p : Nat → Bool) :
    ∀ (n d : Nat), d < n → p d = true → (∀ e < d, p e = false) →
      (List.range n).find? p = some d := by
  intro n
  induction n with
  | zero =>
    intro d hd _ _
    omega
  | succ n ih =>
    intro d hd hp hleast
    rw [List.range_succ, List.find?_append]
    by_cases hdn : d < n
    · rw [ih d hdn hp hleast]
      rfl
    · have hdn' : d = n := by omega
      subst hdn'
      have hnone : (List.range d).find? p = none := by
        rw [List.find?_eq_none]
        intro e he
        rw [List.mem_range] at he
        rw [hleast e he]
        exact Bool.false_ne_true
      rw [hnone]
      show ([d].find? p) = some d
      rw [List.find?_cons_of_pos _ hp]

/-- C9 (amended): for every table whose hop word at `home` fits `hop_type`,
`find_internal(home, k)` scans the set displacement bits `t = u + 1` of the
word at `home` in ascending order, comparing the key stored at slot
`home + t - 1 = home + u` (not `home + t` as the spec sentence says),
returns that physical slot on the first match, and returns the sentinel
`capacity + hop_bucket` when no set bit yields an equal key. -/
theorem C9_locate_examined_slots (hb : Nat) (keyOf : E → K) (s : HopS E)
    (home : Nat) (k : K) (hw : s.hops home < 2 ^ (hb + 1)) :
    findInternal hb keyOf s home k = specLocateFixed hb keyOf s home k := by
  have hwlt : s.hops home >>> 1 < 2 ^ hb := by
    rw [Nat.shiftRight_eq_div_pow]
    rw [Nat.pow_succ] at hw
    omega
  have hfi : findInternal hb keyOf s home k
      = findLoop keyOf s.entries (s.hops home >>> 1) (s.hops home >>> 1)
          home k (s.capacity + hb) := rfl
  have hbit_w : ∀ d, (s.hops home >>> 1).testBit d
      = (s.hops home).testBit (d + 1) := by
    intro d
    rw [Nat.testBit_shiftRight, Nat.add_comm]
  rcases findLoop_spec keyOf s.entries k (s.capacity + hb)
      (s.hops home >>> 1) (s.hops home >>> 1) home (Nat.lt_two_pow _) with
    ⟨hres, hnone⟩ | ⟨d, hbit, hkey, hres, hleast⟩
  · have hfnone : (List.range hb).find? (fun u =>
        (s.hops home).testBit (u + 1) &&
          decide (keyOf (s.entries (home + u)) = k)) = none := by
      rw [List.find?_eq_none]
      intro u hu hc
      simp only [Bool.and_eq_true, decide_eq_true_eq] at hc
      apply hnone u
      · rw [hbit_w u]
        exact hc.1
      · exact hc.2
    rw [hfi, hres]
    unfold specLocateFixed
    rw [hfnone]
  · have hdlt : d < hb := by
      by_contra hge
      push_neg at hge
      rw [testBit_high_of_lt hwlt hge] at hbit
      exact Bool.false_ne_true hbit
    have hfind : (List.range hb).find? (fun u =>
        (s.hops home).testBit (u + 1) &&
          decide (keyOf (s.entries (home + u)) = k)) = some d := by
      apply find_range_least _ hb d hdlt
      · show ((s.hops home).testBit (d + 1) &&
          decide (keyOf (s.entries (home + d)) = k)) = true
        rw [Bool.and_eq_true]
        refine ⟨?_, decide_eq_true hkey⟩
        rw [← hbit_w d]
        exact hbit
      · intro e he
        show ((s.hops home).testBit (e + 1) &&
          decide (keyOf (s.entries (home + e)) = k)) = false
        rcases hbt : (s.hops home).testBit (e + 1) with _ | _
        · rw [Bool.false_and]
        · rw [Bool.true_and]
          apply decide_eq_false
          apply hleast e he
          rw [hbit_w e]
          exact hbt
    rw [hfi, hres]
    unfold specLocateFixed
    rw [hfind]

end LocateLemmas

section SaveLoadLemmas

theorem getD_range_map (f : Nat → Nat) (n j : Nat) (hj : j < n) :
    ((List.range n).map f).getD j 0 = f j := by
  rw [List.getD_eq_getElem _ _ (by simp [hj])]
  rw [List.getElem_map, List.getElem_range]

/-- C6: a save/load round trip does not reconstruct the table: `save` writes
the hop-word array and then the keys array, but `load` fills the keys array
from the first block of the stream and the hop-word array from the second,
so the two arrays come back exchanged (`size` and `capacity` do round-trip;
every used index `i` shows the swap). -/
theorem C6_save_load_swapped (hb : Nat) (s : HopS Nat) (i : Nat)
    (hi : i < s.capacity + hb) :
    (loadStream hb (saveStream hb s)).size = s.size ∧
    (loadStream hb (saveStream hb s)).capacity = s.capacity ∧
    (loadStream hb (saveStream hb s)).entries i = s.hops i ∧
    (loadStream hb (saveStream hb s)).hops i = s.entries i := by
  refine ⟨rfl, rfl, ?_, ?_⟩
  · show (if i < s.capacity + hb then
        ((List.range (s.capacity + hb)).map s.hops ++
          (List.range (s.capacity + hb)).map s.entries).getD i 0 else 0)
      = s.hops i
    rw [if_pos hi]
    rw [List.getD_append _ _ _ _ (by simp [hi])]
    exact getD_range_map s.hops _ i hi
  · show (if i < s.capacity + hb then
        ((List.range (s.capacity + hb)).map s.hops ++
          (List.range (s.capacity + hb)).map s.entries).getD
            (s.capacity + hb + i) 0 else 0)
      = s.entries i
    rw [if_pos hi]
    rw [List.getD_append_right _ _ _ _ (by simp)]
    have hlen : ((List.range (s.capacity + hb)).map s.hops).length
        = s.capacity + hb := by simp
    rw [hlen]
    rw [show s.capacity + hb + i - (s.capacity + hb) = i by omega]
    exact getD_range_map s.entries _ i hi

end SaveLoadLemmas

section Claims

variable {E K : Type} [DecidableEq K]

/-- C1: for every sequence of insert and erase operations run on a
well-formed table, membership as reported by `find` (`hasK`, that is,
`find_internal` returning a position other than the end sentinel) matches the
abstract model in which an insert adds its key and an erase removes it: a key
is found exactly when it has been inserted and not erased since. -/
theorem C1_insert_erase_round_trip (hb : Nat) (hash : K → Nat) (keyOf : E → K)
    (dflt : E) (fuel : Nat) (hhb : 1 ≤ hb) :
    ∀ (ops : List (E ⊕ K)) (s : HopS E), WF hb hash keyOf s →
      ∀ s', runOps hb hash keyOf dflt fuel ops s = some s' →
        WF hb hash keyOf s' ∧
        ∀ x, hasK hb hash keyOf s' x
          = modelMem keyOf ops (fun y => decide (memP hb keyOf s y)) x := by
  intro ops
  induction ops with
  | nil =>
    intro s hwf s' heq
    replace heq : some s = some s' := heq
    cases heq
    refine ⟨hwf, fun x => ?_⟩
    show hasK hb hash keyOf s x = decide (memP hb keyOf s x)
    exact hasK_eq_decide hb hash keyOf s x hhb hwf
  | cons op rest ih =>
    intro s hwf s' heq
    cases op with
    | inl e =>
      replace heq : (insertF hb hash keyOf dflt fuel s e).bind
          (fun r => runOps hb hash keyOf dflt fuel rest r.2.2) = some s' := heq
      rcases h1 : insertF hb hash keyOf dflt fuel s e with _ | r1
      · rw [h1, Option.none_bind] at heq
        exact Option.noConfusion heq
      · rw [h1, Option.some_bind] at heq
        obtain ⟨hwf1, hmem1, hfiff, -, -⟩ :=
          insertF_spec hb hash keyOf dflt hhb fuel s e r1 hwf h1
        have hmem1' : ∀ x, memP hb keyOf r1.2.2 x ↔
            (memP hb keyOf s x ∨ x = keyOf e) := by
          intro x
          rw [hmem1 x]
          constructor
          · rintro (hx | ⟨-, hx⟩)
            · exact Or.inl hx
            · exact Or.inr hx
          · rintro (hx | hx)
            · exact Or.inl hx
            · rcases hr1 : r1.1 with _ | _
              · exact Or.inl (by rw [hx]; exact hfiff.mp hr1)
              · exact Or.inr ⟨rfl, hx⟩
        obtain ⟨hwf', hmodel⟩ := ih r1.2.2 hwf1 s' heq
        refine ⟨hwf', fun x => ?_⟩
        show hasK hb hash keyOf s' x
          = modelMem keyOf rest
              (fun y => decide (memP hb keyOf s y) || decide (y = keyOf e)) x
        rw [hmodel x]
        apply modelMem_congr
        intro y
        rw [← Bool.decide_or]
        exact decide_eq_decide.mpr (hmem1' y)
    | inr k =>
      replace heq : runOps hb hash keyOf dflt fuel rest
          (eraseK hb hash keyOf s k).2 = some s' := heq
      rcases eraseK_spec hb hash keyOf s k hhb hwf with ⟨hnm, heqK⟩ |
        ⟨-, -, hwf2, hmem2, -, -, -, -⟩
      · rw [heqK] at heq
        replace heq : runOps hb hash keyOf dflt fuel rest s = some s' := heq
        obtain ⟨hwf', hmodel⟩ := ih s hwf s' heq
        refine ⟨hwf', fun x => ?_⟩
        show hasK hb hash keyOf s' x
          = modelMem keyOf rest
              (fun y => decide (memP hb keyOf s y) && decide (y ≠ k)) x
        rw [hmodel x]
        apply modelMem_congr
        intro y
        by_cases hy : y = k
        · rw [hy, decide_eq_false hnm]
          simp
        · rw [show decide (y ≠ k) = true from decide_eq_true hy]
          simp
      · obtain ⟨hwf', hmodel⟩ := ih (eraseK hb hash keyOf s k).2 hwf2 s' heq
        refine ⟨hwf', fun x => ?_⟩
        show hasK hb hash keyOf s' x
          = modelMem keyOf rest
              (fun y => decide (memP hb keyOf s y) && decide (y ≠ k)) x
        rw [hmodel x]
        apply modelMem_congr
        intro y
        rw [← Bool.decide_and]
        exact decide_eq_decide.mpr (hmem2 y)

/-- Witness for C1: a concrete run of two inserts and one erase on a fresh
capacity-8 table. -/
theorem C1_insert_erase_round_trip_witness :
    (runOps 7 (fun k => k) (fun e => e) 0 3
        [Sum.inl 5, Sum.inl 6, Sum.inr 5]
        (initInternal (0:Nat) 8 : HopS Nat)).isSome = true ∧
    (∀ s', runOps 7 (fun k => k) (fun e => e) 0 3
        [Sum.inl 5, Sum.inl 6, Sum.inr 5]
        (initInternal (0:Nat) 8 : HopS Nat) = some s' →
      WF 7 (fun k => k) (fun e => e) s' ∧
      ∀ x, hasK 7 (fun k => k) (fun e => e) s' x
        = modelMem (fun e => e) [Sum.inl 5, Sum.inl 6, Sum.inr 5]
            (fun y => decide (memP 7 (fun e => e)
              (initInternal (0:Nat) 8 : HopS Nat) y)) x) :=
  ⟨by decide, fun s' hs' =>
    C1_insert_erase_round_trip 7 (fun k => k) (fun e => e) 0 3 (by decide)
      [Sum.inl 5, Sum.inl 6, Sum.inr 5] (initInternal (0:Nat) 8 : HopS Nat)
      (by decide) s' hs'⟩

/-- C2: after any completed insert on a well-formed table, every live key is
found by the neighborhood scan rooted at its home bucket: the physical slot
returned by `find_internal` (`findIndex`) lies between `bucket_of(key)` and
`bucket_of(key) + hop_bucket - 1`, is occupied, and stores the key. -/
theorem C2_neighborhood_bound (hb : Nat) (hash : K → Nat) (keyOf : E → K)
    (dflt : E) (fuel : Nat) (s : HopS E) (e : E) (hhb : 1 ≤ hb)
    (hwf : WF hb hash keyOf s) :
    ∀ r, insertF hb hash keyOf dflt fuel s e = some r →
      ∀ x, memP hb keyOf r.2.2 x →
        bucketOf hash r.2.2.capacity x ≤ findIndex hb hash keyOf r.2.2 x ∧
        findIndex hb hash keyOf r.2.2 x + 1
          ≤ bucketOf hash r.2.2.capacity x + hb ∧
        r.2.2.hops (findIndex hb hash keyOf r.2.2 x) % 2 = 1 ∧
        keyOf (r.2.2.entries (findIndex hb hash keyOf r.2.2 x)) = x := by
  intro r heq x hx
  have hwf' := (insertF_spec hb hash keyOf dflt hhb fuel s e r hwf heq).1
  rcases findInternal_correct hb hash keyOf r.2.2 x hhb hwf' with ⟨-, hnm⟩ |
    ⟨-, h2, h3, h4, h5, -⟩
  · exact absurd hx hnm
  · exact ⟨h4, h5, h2, h3⟩

/-- Witness for C2: inserting key 5 into a concrete table holding 2 and 3. -/
theorem C2_neighborhood_bound_witness :
    (insertF 7 (fun k => k) (fun e => e) 0 2
        ({ entries := fun i => i,
           hops := fun i => if i = 2 ∨ i = 3 then 3 else 0,
           size := 2, capacity := 8 } : HopS Nat) 5).isSome = true ∧
    (∀ r, insertF 7 (fun k => k) (fun e => e) 0 2
        ({ entries := fun i => i,
           hops := fun i => if i = 2 ∨ i = 3 then 3 else 0,
           size := 2, capacity := 8 } : HopS Nat) 5 = some r →
      ∀ x, memP 7 (fun e => e) r.2.2 x →
        bucketOf (fun k => k) r.2.2.capacity x
          ≤ findIndex 7 (fun k => k) (fun e => e) r.2.2 x ∧
        findIndex 7 (fun k => k) (fun e => e) r.2.2 x + 1
          ≤ bucketOf (fun k => k) r.2.2.capacity x + 7 ∧
        r.2.2.hops (findIndex 7 (fun k => k) (fun e => e) r.2.2 x) % 2 = 1 ∧
        (fun e => e) (r.2.2.entries
          (findIndex 7 (fun k => k) (fun e => e) r.2.2 x)) = x) :=
  ⟨by decide,
    C2_neighborhood_bound 7 (fun k => k) (fun e => e) 0 2
      ({ entries := fun i => i,
         hops := fun i => if i = 2 ∨ i = 3 then 3 else 0,
         size := 2, capacity := 8 } : HopS Nat) 5 (by decide) (by decide)⟩

/-- C3: the set-algebra operators agree with their mathematical meaning on
well-formed sets: `&` keeps exactly the common keys, `|` (when its inserts
complete) holds exactly the keys of either operand, `-` the keys of the left
operand absent from the right, `^` exactly the keys of `(A - B) | (B - A)`,
and `intersects` returns true exactly when `A & B` is non-empty. -/
theorem C3_set_algebra (hb : Nat) (hash : K → Nat) (keyOf : E → K) (dflt : E)
    (fuel : Nat) (a b : HopS E) (hhb : 1 ≤ hb)
    (hwfa : WF hb hash keyOf a) (hwfb : WF hb hash keyOf b) :
    (∀ x, memP hb keyOf (interOp hb hash keyOf a b) x ↔
      (memP hb keyOf a x ∧ memP hb keyOf b x)) ∧
    (∀ u, unionOp hb hash keyOf dflt fuel a b = some u →
      ∀ x, memP hb keyOf u x ↔ (memP hb keyOf a x ∨ memP hb keyOf b x)) ∧
    (∀ x, memP hb keyOf (diffOp hb hash keyOf a b) x ↔
      (memP hb keyOf a x ∧ ¬ memP hb keyOf b x)) ∧
    (∀ u, symmOp hb hash keyOf dflt fuel a b = some u →
      ∀ x, memP hb keyOf u x ↔
        (memP hb keyOf (diffOp hb hash keyOf a b) x ∨
          memP hb keyOf (diffOp hb hash keyOf b a) x)) ∧
    intersectsK hb hash keyOf a b
      = !(emptyK (interOp hb hash keyOf a b)) := by
  obtain ⟨hwfI, -, hI1, hI2, hI3⟩ := interFold_spec hb hash keyOf b hhb
    (List.range (a.capacity + hb)) a hwfa
    (fun i hi => List.mem_range.mp hi)
    (fun i hiL _ _ => List.mem_range.mpr hiL)
  have hInter : ∀ x, memP hb keyOf (interOp hb hash keyOf a b) x ↔
      (memP hb keyOf a x ∧ memP hb keyOf b x) := by
    intro x
    constructor
    · intro hx
      refine ⟨hI1 x hx, ?_⟩
      exact (hasK_true_iff hb hash keyOf b x hhb hwfb).mp (hI3 x hx)
    · rintro ⟨hax, hbx⟩
      exact hI2 x hax ((hasK_true_iff hb hash keyOf b x hhb hwfb).mpr hbx)
  have hDiffAB : ∀ x, memP hb keyOf (diffOp hb hash keyOf a b) x ↔
      (memP hb keyOf a x ∧ ¬ memP hb keyOf b x) := by
    intro x
    obtain ⟨-, hmem⟩ :=
      diffFold_spec hb hash keyOf hhb (slotKeys hb keyOf b) a hwfa
    have h2 : (memP hb keyOf a x ∧ x ∉ slotKeys hb keyOf b) ↔
        (memP hb keyOf a x ∧ ¬ memP hb keyOf b x) := by
      rw [mem_slotKeys hb keyOf b x]
    exact (hmem x).trans h2
  have hDiffBA : ∀ x, memP hb keyOf (diffOp hb hash keyOf b a) x ↔
      (memP hb keyOf b x ∧ ¬ memP hb keyOf a x) := by
    intro x
    obtain ⟨-, hmem⟩ :=
      diffFold_spec hb hash keyOf hhb (slotKeys hb keyOf a) b hwfb
    have h2 : (memP hb keyOf b x ∧ x ∉ slotKeys hb keyOf a) ↔
        (memP hb keyOf b x ∧ ¬ memP hb keyOf a x) := by
      rw [mem_slotKeys hb keyOf a x]
    exact (hmem x).trans h2
  refine ⟨hInter, ?_, hDiffAB, ?_, ?_⟩
  · intro u hu x
    unfold unionOp at hu
    by_cases hlt : a.size < b.size
    · rw [if_pos hlt] at hu
      obtain ⟨-, hmem⟩ := insFold_spec hb hash keyOf dflt fuel hhb
        (slotEntries hb a) b u hwfb hu
      rw [hmem x, exists_slotEntries_key hb keyOf a x]
      constructor
      · rintro (h | h)
        · exact Or.inr h
        · exact Or.inl h
      · rintro (h | h)
        · exact Or.inr h
        · exact Or.inl h
    · rw [if_neg hlt] at hu
      obtain ⟨-, hmem⟩ := insFold_spec hb hash keyOf dflt fuel hhb
        (slotEntries hb b) a u hwfa hu
      rw [hmem x, exists_slotEntries_key hb keyOf b x]
  · intro u hu x
    have hnd : ((slotEntries hb b).map keyOf).Nodup :=
      slotKeys_nodup hb hash keyOf b hwfb
    obtain ⟨-, hmem⟩ := symmFold_spec hb hash keyOf dflt fuel hhb
      (slotEntries hb b) a u hwfa hnd hu
    rw [hmem x, hDiffAB x, hDiffBA x]
    have hmm : x ∈ (slotEntries hb b).map keyOf ↔ memP hb keyOf b x :=
      mem_slotKeys hb keyOf b x
    rw [hmm]
    constructor
    · rintro (⟨h1, h2⟩ | ⟨h1, h2⟩)
      · exact Or.inl ⟨h1, h2⟩
      · exact Or.inr ⟨h2, h1⟩
    · rintro (⟨h1, h2⟩ | ⟨h1, h2⟩)
      · exact Or.inl ⟨h1, h2⟩
      · exact Or.inr ⟨h2, h1⟩
  · by_cases hex : ∃ k, memP hb keyOf a k ∧ memP hb keyOf b k
    · rw [(intersectsK_iff hb hash keyOf a b hhb hwfa hwfb).mpr hex]
      obtain ⟨k, hk⟩ := hex
      have hmemI : memP hb keyOf (interOp hb hash keyOf a b) k :=
        (hInter k).mpr hk
      have hsz : ¬ (interOp hb hash keyOf a b).size = 0 := by
        intro h0
        exact (size_zero_iff hb hash keyOf _ hwfI).mp h0 ⟨k, hmemI⟩
      rw [show emptyK (interOp hb hash keyOf a b) = false from
        decide_eq_false hsz]
      rfl
    · have hne : intersectsK hb hash keyOf a b = false := by
        rw [← Bool.not_eq_true]
        intro ht
        exact hex ((intersectsK_iff hb hash keyOf a b hhb hwfa hwfb).mp ht)
      have hwfI2 : WF hb hash keyOf (interOp hb hash keyOf a b) := hwfI
      have hz : (interOp hb hash keyOf a b).size = 0 := by
        rw [size_zero_iff hb hash keyOf (interOp hb hash keyOf a b) hwfI2]
        rintro ⟨k, hk⟩
        exact hex ⟨k, (hInter k).mp hk⟩
      rw [hne, show emptyK (interOp hb hash keyOf a b) = true from
        decide_eq_true hz]
      rfl

/-- Witness for C3's intersects clause on two concrete sets sharing key 3. -/
theorem C3_set_algebra_witness :
    intersectsK 7 (fun k => k) (fun e => e)
        ({ entries := fun i => i,
           hops := fun i => if i = 2 ∨ i = 3 then 3 else 0,
           size := 2, capacity := 8 } : HopS Nat)
        ({ entries := fun i => i,
           hops := fun i => if i = 3 ∨ i = 5 then 3 else 0,
           size := 2, capacity := 8 } : HopS Nat)
      = !(emptyK (interOp 7 (fun k => k) (fun e => e)
        ({ entries := fun i => i,
           hops := fun i => if i = 2 ∨ i = 3 then 3 else 0,
           size := 2, capacity := 8 } : HopS Nat)
        ({ entries := fun i => i,
           hops := fun i => if i = 3 ∨ i = 5 then 3 else 0,
           size := 2, capacity := 8 } : HopS Nat))) :=
  (C3_set_algebra 7 (fun k => k) (fun e => e) 0 2
    ({ entries := fun i => i,
       hops := fun i => if i = 2 ∨ i = 3 then 3 else 0,
       size := 2, capacity := 8 } : HopS Nat)
    ({ entries := fun i => i,
       hops := fun i => if i = 3 ∨ i = 5 then 3 else 0,
       size := 2, capacity := 8 } : HopS Nat)
    (by decide) (by decide) (by decide)).2.2.2.2

/-- C4: inserting a key that is already present returns immediately with the
key's existing position and the table unchanged — so the stored entry (the
Dict value) and the size are untouched — reporting `false` (the
`Set::insert` return value). -/
theorem C4_insert_idempotent (hb : Nat) (hash : K → Nat) (keyOf : E → K)
    (dflt : E) (fuel : Nat) (s : HopS E) (e : E) (hhb : 1 ≤ hb)
    (hwf : WF hb hash keyOf s) (hmem : memP hb keyOf s (keyOf e)) :
    insertF hb hash keyOf dflt (fuel + 1) s e
      = some (false, findIndex hb hash keyOf s (keyOf e), s) := by
  have hne : findIndex hb hash keyOf s (keyOf e) ≠ s.capacity + hb := by
    rcases findInternal_correct hb hash keyOf s (keyOf e) hhb hwf with
      ⟨-, hnm⟩ | ⟨hlt, -⟩
    · exact absurd hmem hnm
    · omega
  show insertStep hb hash keyOf dflt (insertF hb hash keyOf dflt fuel) s e
    = some (false, findIndex hb hash keyOf s (keyOf e), s)
  rw [insertStep_eq hb hash keyOf dflt (insertF hb hash keyOf dflt fuel) s e
    (bucketOf hash s.capacity (keyOf e)) _ _ rfl rfl rfl]
  have hne2 : findInternal hb keyOf s (bucketOf hash s.capacity (keyOf e))
      (keyOf e) ≠ s.capacity + hb := hne
  rw [if_pos hne2]
  rfl

/-- Witness for C4: re-inserting the present key 3. -/
theorem C4_insert_idempotent_witness :
    insertF 7 (fun k => k) (fun e => e) 0 2
        ({ entries := fun i => i,
           hops := fun i => if i = 2 ∨ i = 3 then 3 else 0,
           size := 2, capacity := 8 } : HopS Nat) 3
      = some (false, findIndex 7 (fun k => k) (fun e => e)
          ({ entries := fun i => i,
             hops := fun i => if i = 2 ∨ i = 3 then 3 else 0,
             size := 2, capacity := 8 } : HopS Nat) 3,
          ({ entries := fun i => i,
             hops := fun i => if i = 2 ∨ i = 3 then 3 else 0,
             size := 2, capacity := 8 } : HopS Nat)) :=
  C4_insert_idempotent 7 (fun k => k) (fun e => e) 0 1
    ({ entries := fun i => i,
       hops := fun i => if i = 2 ∨ i = 3 then 3 else 0,
       size := 2, capacity := 8 } : HopS Nat) 3
    (by decide) (by decide) (by decide)

/-- C5 (amended): `capacity` is kept a power of two — `init_internal` sets it
to `npot32(initial_size)`, which is a power of two for any request in
`[1, 2^31]`, and every completed insert multiplies it by a power of two (one
doubling per `expand`).  The original claim's second half, `capacity ≥
hop_size`, is false: a request of 1 yields capacity 1 (see the
counterexample). -/
theorem C5_capacity_pow_two (hb : Nat) (hash : K → Nat) (keyOf : E → K)
    (dflt : E) (fuel v : Nat) (s : HopS E) (e : E) (hhb : 1 ≤ hb)
    (hv1 : 1 ≤ v) (hv2 : v ≤ 2 ^ 31) (hwf : WF hb hash keyOf s)
    (hcap : ∃ m, s.capacity = 2 ^ m) :
    (∃ m, (initInternal dflt v : HopS E).capacity = 2 ^ m) ∧
    (∀ r, insertF hb hash keyOf dflt fuel s e = some r →
      ∃ m, r.2.2.capacity = 2 ^ m) := by
  constructor
  · show ∃ m, npot32 v = 2 ^ m
    exact npot32_is_pow v hv1 hv2
  · intro r heq
    obtain ⟨m0, hm0⟩ := hcap
    obtain ⟨-, -, -, -, m, hm⟩ :=
      insertF_spec hb hash keyOf dflt hhb fuel s e r hwf heq
    exact ⟨m + m0, by rw [hm, hm0, pow_add]⟩

/-- Witness for C5 at request 5 (capacity 8) and an insert into a
capacity-8 table. -/
theorem C5_capacity_pow_two_witness :
    (∃ m, (initInternal (0:Nat) 5 : HopS Nat).capacity = 2 ^ m) ∧
    (∀ r, insertF 7 (fun k => k) (fun e => e) 0 2
        ({ entries := fun i => i,
           hops := fun i => if i = 2 ∨ i = 3 then 3 else 0,
           size := 2, capacity := 8 } : HopS Nat) 5 = some r →
      ∃ m, r.2.2.capacity = 2 ^ m) :=
  C5_capacity_pow_two 7 (fun k => k) (fun e => e) 0 2 5
    ({ entries := fun i => i,
       hops := fun i => if i = 2 ∨ i = 3 then 3 else 0,
       size := 2, capacity := 8 } : HopS Nat) 5
    (by decide) (by decide) (by norm_num) (by decide) ⟨3, rfl⟩

/-- Counterexample to C5 as stated: a requested initial size of 1 gives
capacity `npot32(1) = 1`, below every legal `hop_size` (8, 16 or 32). -/
theorem C5_counterexample :
    (initInternal (0:Nat) 1 : HopS Nat).capacity = 1 ∧
    (initInternal (0:Nat) 1 : HopS Nat).capacity < 8 := by
  exact ⟨by decide, by decide⟩

/-- Witness for C6: the round trip on a one-element set of capacity 8
exchanges the hop word and the key of slot 2. -/
theorem C6_save_load_swapped_witness :
    (loadStream 7 (saveStream 7
        ({ entries := fun i => i + 100,
           hops := fun i => if i = 2 then 3 else 0,
           size := 1, capacity := 8 } : HopS Nat))).size
      = ({ entries := fun i => i + 100,
           hops := fun i => if i = 2 then 3 else 0,
           size := 1, capacity := 8 } : HopS Nat).size ∧
    (loadStream 7 (saveStream 7
        ({ entries := fun i => i + 100,
           hops := fun i => if i = 2 then 3 else 0,
           size := 1, capacity := 8 } : HopS Nat))).capacity
      = ({ entries := fun i => i + 100,
           hops := fun i => if i = 2 then 3 else 0,
           size := 1, capacity := 8 } : HopS Nat).capacity ∧
    (loadStream 7 (saveStream 7
        ({ entries := fun i => i + 100,
           hops := fun i => if i = 2 then 3 else 0,
           size := 1, capacity := 8 } : HopS Nat))).entries 2
      = ({ entries := fun i => i + 100,
           hops := fun i => if i = 2 then 3 else 0,
           size := 1, capacity := 8 } : HopS Nat).hops 2 ∧
    (loadStream 7 (saveStream 7
        ({ entries := fun i => i + 100,
           hops := fun i => if i = 2 then 3 else 0,
           size := 1, capacity := 8 } : HopS Nat))).hops 2
      = ({ entries := fun i => i + 100,
           hops := fun i => if i = 2 then 3 else 0,
           size := 1, capacity := 8 } : HopS Nat).entries 2 :=
  C6_save_load_swapped 7
    ({ entries := fun i => i + 100,
       hops := fun i => if i = 2 then 3 else 0,
       size := 1, capacity := 8 } : HopS Nat) 2 (by decide)

/-- C7: `clear()` at the default `HopSize = 32` (4-byte hop words) does not
empty the set: `clear_internal` passes the element count
`capacity_ + hop_bucket`, not the byte count, to `memset`, so only the first
quarter of the bitmap buffer is zeroed.  On a capacity-32 table holding key
20 in slot 20, the hop word at index 20 survives and `has(20)` still
returns true, even though `size()` is 0, low words (index 0) are cleared,
and capacity is retained. -/
theorem C7_clear_incomplete :
    (clearInternal 31
        ({ entries := fun i => i,
           hops := fun i => if i = 20 then 3 else 0,
           size := 1, capacity := 32 } : HopS Nat)).size = 0 ∧
    (clearInternal 31
        ({ entries := fun i => i,
           hops := fun i => if i = 20 then 3 else 0,
           size := 1, capacity := 32 } : HopS Nat)).capacity = 32 ∧
    (clearInternal 31
        ({ entries := fun i => i,
           hops := fun i => if i = 20 then 3 else 0,
           size := 1, capacity := 32 } : HopS Nat)).hops 0 = 0 ∧
    (clearInternal 31
        ({ entries := fun i => i,
           hops := fun i => if i = 20 then 3 else 0,
           size := 1, capacity := 32 } : HopS Nat)).hops 20 = 3 ∧
    hasK 31 (fun k => k) (fun e => e)
      (clearInternal 31
        ({ entries := fun i => i,
           hops := fun i => if i = 20 then 3 else 0,
           size := 1, capacity := 32 } : HopS Nat)) 20 = true := by
  exact ⟨rfl, rfl, by decide, by decide, by decide⟩

/-- C8 (amended): a requested initial size of 0 is not rounded up to the
neighborhood width: in `npot32(0)`, `--value` wraps to `2^32 - 1`, the
or-shift smears keep it there, and `++value` wraps back to 0, so the
constructed table has capacity 0, not `HopSize`. -/
theorem C8_zero_request :
    (initInternal (0:Nat) 0 : HopS Nat).capacity = 0 ∧ npot32 0 = 0 := by
  exact ⟨by decide, by decide⟩

/-- Counterexample to C8 as stated: the capacity constructed for request 0
is neither 8 (the smallest `HopSize`) nor 32 (the default `HopSize`); it
is 0. -/
theorem C8_counterexample :
    ¬ ((initInternal (0:Nat) 0 : HopS Nat).capacity = 8 ∨
       (initInternal (0:Nat) 0 : HopS Nat).capacity = 32) := by
  decide

/-- Witness for C9 on a concrete table holding keys 2 and 3 in their home
slots: the scan rooted at bucket 2 for key 3 agrees with the corrected
slot arithmetic. -/
theorem C9_locate_examined_slots_witness :
    findInternal 7 (fun e => e)
        ({ entries := fun i => i,
           hops := fun i => if i = 2 ∨ i = 3 then 3 else 0,
           size := 2, capacity := 8 } : HopS Nat) 2 2
      = specLocateFixed 7 (fun e => e)
        ({ entries := fun i => i,
           hops := fun i => if i = 2 ∨ i = 3 then 3 else 0,
           size := 2, capacity := 8 } : HopS Nat) 2 2 :=
  C9_locate_examined_slots 7 (fun e => e)
    ({ entries := fun i => i,
       hops := fun i => if i = 2 ∨ i = 3 then 3 else 0,
       size := 2, capacity := 8 } : HopS Nat) 2 2 (by decide)

/-- Counterexample to C9 as stated: on a table holding key 3 in its home
slot 3 (hop word `0b11` at index 3), `find_internal(3, 3)` returns slot 3 —
it examines slot `home + k - 1` for displacement bit `k` — while the
spec-worded locate (`specLocate`, which examines slot `home + k`) misses
the key and returns the sentinel 15. -/
theorem C9_counterexample :
    findInternal 7 (fun e => e)
        ({ entries := fun i => i,
           hops := fun i => if i = 2 ∨ i = 3 then 3 else 0,
           size := 2, capacity := 8 } : HopS Nat) 3 3 = 3 ∧
    specLocate 7 (fun e => e)
        ({ entries := fun i => i,
           hops := fun i => if i = 2 ∨ i = 3 then 3 else 0,
           size := 2, capacity := 8 } : HopS Nat) 3 3 = 15 := by
  exact ⟨by decide, by decide⟩

/-- C10: a successful erase of a present key changes only the occupancy bit
of the key's slot, the displacement bit of the home word, and the size
counter: it returns true, the entry buffer (keys, and values for `Dict`) is
untouched — no destructor runs and no slot is overwritten — capacity is
unchanged, size drops by one, and every hop-word bit other than the two
cleared ones keeps its value. -/
theorem C10_erase_frame (hb : Nat) (hash : K → Nat) (keyOf : E → K)
    (s : HopS E) (k : K) (hhb : 1 ≤ hb) (hwf : WF hb hash keyOf s)
    (hmem : memP hb keyOf s k) :
    (eraseK hb hash keyOf s k).1 = true ∧
    (eraseK hb hash keyOf s k).2.entries = s.entries ∧
    (eraseK hb hash keyOf s k).2.capacity = s.capacity ∧
    (eraseK hb hash keyOf s k).2.size = s.size - 1 ∧
    WF hb hash keyOf (eraseK hb hash keyOf s k).2 ∧
    (∀ i t, ¬ (i = bucketOf hash s.capacity k ∧
        t = findIndex hb hash keyOf s k - bucketOf hash s.capacity k + 1) →
      ¬ (i = findIndex hb hash keyOf s k ∧ t = 0) →
      ((eraseK hb hash keyOf s k).2.hops i).testBit t
        = (s.hops i).testBit t) := by
  rcases eraseK_spec hb hash keyOf s k hhb hwf with ⟨hnm, -⟩ |
    ⟨-, h1, h2, -, h4, h5, h6, h7⟩
  · exact absurd hmem hnm
  · exact ⟨h1, h4, h5, h6, h2, h7⟩

/-- Witness for C10: erasing key 2 from a concrete two-element table. -/
theorem C10_erase_frame_witness :
    (eraseK 7 (fun k => k) (fun e => e)
        ({ entries := fun i => i,
           hops := fun i => if i = 2 ∨ i = 3 then 3 else 0,
           size := 2, capacity := 8 } : HopS Nat) 2).1 = true ∧
    (eraseK 7 (fun k => k) (fun e => e)
        ({ entries := fun i => i,
           hops := fun i => if i = 2 ∨ i = 3 then 3 else 0,
           size := 2, capacity := 8 } : HopS Nat) 2).2.entries
      = ({ entries := fun i => i,
           hops := fun i => if i = 2 ∨ i = 3 then 3 else 0,
           size := 2, capacity := 8 } : HopS Nat).entries ∧
    (eraseK 7 (fun k => k) (fun e => e)
        ({ entries := fun i => i,
           hops := fun i => if i = 2 ∨ i = 3 then 3 else 0,
           size := 2, capacity := 8 } : HopS Nat) 2).2.capacity
      = ({ entries := fun i => i,
           hops := fun i => if i = 2 ∨ i = 3 then 3 else 0,
           size := 2, capacity := 8 } : HopS Nat).capacity ∧
    (eraseK 7 (fun k => k) (fun e => e)
        ({ entries := fun i => i,
           hops := fun i => if i = 2 ∨ i = 3 then 3 else 0,
           size := 2, capacity := 8 } : HopS Nat) 2).2.size
      = ({ entries := fun i => i,
           hops := fun i => if i = 2 ∨ i = 3 then 3 else 0,
           size := 2, capacity := 8 } : HopS Nat).size - 1 ∧
    WF 7 (fun k => k) (fun e => e)
      (eraseK 7 (fun k => k) (fun e => e)
        ({ entries := fun i => i,
           hops := fun i => if i = 2 ∨ i = 3 then 3 else 0,
           size := 2, capacity := 8 } : HopS Nat) 2).2 ∧
    (∀ i t, ¬ (i = bucketOf (fun k => k)
        ({ entries := fun i => i,
           hops := fun i => if i = 2 ∨ i = 3 then 3 else 0,
           size := 2, capacity := 8 } : HopS Nat).capacity 2 ∧
        t = findIndex 7 (fun k => k) (fun e => e)
          ({ entries := fun i => i,
             hops := fun i => if i = 2 ∨ i = 3 then 3 else 0,
             size := 2, capacity := 8 } : HopS Nat) 2
          - bucketOf (fun k => k)
            ({ entries := fun i => i,
               hops := fun i => if i = 2 ∨ i = 3 then 3 else 0,
               size := 2, capacity := 8 } : HopS Nat).capacity 2 + 1) →
      ¬ (i = findIndex 7 (fun k => k) (fun e => e)
          ({ entries := fun i => i,
             hops := fun i => if i = 2 ∨ i = 3 then 3 else 0,
             size := 2, capacity := 8 } : HopS Nat) 2 ∧ t = 0) →
      ((eraseK 7 (fun k => k) (fun e => e)
          ({ entries := fun i => i,
             hops := fun i => if i = 2 ∨ i = 3 then 3 else 0,
             size := 2, capacity := 8 } : HopS Nat) 2).2.hops i).testBit t
        = (({ entries := fun i => i,
              hops := fun i => if i = 2 ∨ i = 3 then 3 else 0,
              size := 2, capacity := 8 } : HopS Nat).hops i).testBit t) :=
  C10_erase_frame 7 (fun k => k) (fun e => e)
    ({ entries := fun i => i,
       hops := fun i => if i = 2 ∨ i = 3 then 3 else 0,
       size := 2, capacity := 8 } : HopS Nat) 2
    (by decide) (by decide) (by decide)

end Claims

end RK
